import Mathlib

/-!
# The import cache of the harness (`harness/import_cache.go`)

A shallow embedding of `ImportCache.addImports` and `ImportCache.processPackage`
and the properties of the alias cache, the per-file import table and the
package scan that follow from the code.

Conventions of the embedding.

* A Go `string` is a sequence of bytes. It is represented by a Lean `String`
  whose characters stand for the bytes (ASCII text is written as it is), so
  `len`, slicing, `strings.HasSuffix` and `strings.Contains` are the list
  operations on `String.data`.
* A Go `map` is a finite map (`Finmap`): extensional equality, `lookup`,
  `insert` (which replaces), and `len` as the number of keys.
* A Go panic (failed type assertion, slice bounds out of range) is the result
  `none`; a normal return is `some` of the state after the call.
* `build.Import`, the one call that leaves the package, is a parameter
  `buildImport path srcDir`: `some name` when it returns a package whose
  `Name` is `name` and a nil error, `none` when it returns an error. Every
  invocation is recorded in `Store.importerCalls`, every line printed to
  `revel.TRACE` in `Store.trace`.
* `pkg.Files` is a Go map, ranged over in an order the runtime chooses; the
  package carries its files as the list in the order of that iteration, and
  every statement holds for every list, hence for every order.
-/

namespace Harness

/-! ## Strings and maps -/

/-- Go `map[string]string`. -/
abbrev StringMap := Finmap fun _ : String => String

/-- The source's `type ImportCache map[string]string`: import path to alias. -/
abbrev ImportCache := Finmap fun _ : String => String

/-- Go `map[int]string`: what `getValidationKeys` returns, line to key. -/
abbrev LineKeys := Finmap fun _ : Int => String

/-- The index expression `m[k]` on a `map[string]string`: the stored value, or
the zero value `""` when the key is absent. -/
def index (m : StringMap) (k : String) : String :=
  (m.lookup k).getD ""

/-- The builtin `len` on a string. -/
def len (s : String) : Int :=
  (s.data.length : Int)

/-- The slice expression `s[lo:hi]` on a string: it panics (`none`) unless
`0 ≤ lo ≤ hi ≤ len(s)`, and otherwise is the bytes from `lo` up to `hi`. -/
def slice (s : String) (lo hi : Int) : Option String :=
  if 0 ≤ lo ∧ lo ≤ hi ∧ hi ≤ len s then
    some ⟨(s.data.drop lo.toNat).take (hi.toNat - lo.toNat)⟩
  else none

/-- Library function `strings.HasSuffix(s, suffix)`. -/
def HasSuffix (s suffix : String) : Bool :=
  suffix.data.isSuffixOf s.data

/-- Library function `strings.Contains(s, substr)`. -/
def Contains (s substr : String) : Bool :=
  decide (substr.data <:+: s.data)

/-! ## The syntax tree (`go/ast`), as far as this file looks at it -/

/-- The `Tok` of a general declaration (`token.IMPORT`, `CONST`, `TYPE`, `VAR`). -/
inductive Token where
  | IMPORT
  | CONST
  | TYPE
  | VAR
  deriving DecidableEq, Repr

/-- An `*ast.ImportSpec`. `Name` is `none` for a nil `Name` (no alias in the
source) and `some n` for an identifier whose `Name` is `n`; `Path` is
`Path.Value`, the path literal with its quote characters. -/
structure ImportSpec where
  Name : Option String
  Path : String
  deriving DecidableEq, Repr

/-- An `ast.Spec` node: one of `*ast.ImportSpec`, `*ast.ValueSpec`,
`*ast.TypeSpec`. Of the last two only the declared names are kept: this file
hands them on to the extractors without looking at them. -/
inductive Spec where
  | importSpec (s : ImportSpec)
  | valueSpec (Names : List String)
  | typeSpec (Name : String)
  deriving DecidableEq, Repr

/-- An `*ast.FuncDecl`: receiver type (`none` for a nil `Recv`, a plain
function), `Name.Name`, the parameter names of `Type.Params`, and the body as
source text. This file reads `Name` only. -/
structure FuncDecl where
  Recv : Option String
  Name : String
  Params : List String
  Body : String
  deriving DecidableEq, Repr

/-- An `ast.Decl` node: `*ast.BadDecl`, `*ast.GenDecl` or `*ast.FuncDecl`. -/
inductive Decl where
  | badDecl
  | genDecl (Tok : Token) (Specs : List Spec)
  | funcDecl (f : FuncDecl)
  deriving DecidableEq, Repr

/-- An `*ast.File`: its top-level declarations. -/
structure File where
  Decls : List Decl
  deriving DecidableEq, Repr

/-- An `*ast.Package`: its name and its files, in the order in which
`range pkg.Files` visits them. -/
structure Package where
  Name : String
  Files : List File
  deriving DecidableEq, Repr

/-! ## `addImports` -/

/-- What `addImports` reads and writes: the file's import table (`imports`),
the receiver (`ip`), and the two records of what left the function: the
`build.Import` invocations `(path, srcDir)` and the lines printed to
`revel.TRACE`, both oldest first. -/
structure Store where
  imports : StringMap
  ip : ImportCache
  importerCalls : List (String × String)
  trace : List String
  deriving DecidableEq

/-- The body of the loop `for _, spec := range genDecl.Specs` of `addImports`
(lines 85 to 121), on one spec. -/
def addImportSpec (buildImport : String → String → Option String) (srcDir : String)
    (st : Store) (spec : Spec) : Option Store :=
  match spec with
  | .importSpec importSpec =>
    -- var pkgAlias string; if importSpec.Name != nil { pkgAlias = importSpec.Name.Name; ... }
    let pkgAlias : String :=
      match importSpec.Name with
      | some name => name
      | none => ""
    -- if pkgAlias == "_" { continue }, inside `if importSpec.Name != nil`
    if importSpec.Name.isSome ∧ pkgAlias = "_" then some st
    else
      let quotedPath := importSpec.Path
      -- fullPath := quotedPath[1 : len(quotedPath)-1]
      match slice quotedPath 1 (len quotedPath - 1) with
      | none => none
      | some fullPath =>
        -- if pkgAlias == "" { pkgAlias = ip[fullPath] }
        let pkgAlias := if pkgAlias = "" then index st.ip fullPath else pkgAlias
        if pkgAlias = "" then
          -- pkg, err := build.Import(fullPath, srcDir, 0)
          let calls := st.importerCalls ++ [(fullPath, srcDir)]
          match buildImport fullPath srcDir with
          | none =>
            -- if !strings.HasSuffix(fullPath, "/app/routes") { TRACE.Println(...) }; continue
            if !HasSuffix fullPath "/app/routes" then
              some { st with importerCalls := calls,
                             trace := st.trace ++ ["Could not find import: " ++ fullPath] }
            else
              some { st with importerCalls := calls }
          | some name =>
            -- pkgAlias = pkg.Name; ip[fullPath] = pkgAlias; imports[pkgAlias] = fullPath
            some { st with importerCalls := calls,
                           ip := st.ip.insert fullPath name,
                           imports := st.imports.insert name fullPath }
        else
          -- imports[pkgAlias] = fullPath
          some { st with imports := st.imports.insert pkgAlias fullPath }
  -- importSpec := spec.(*ast.ImportSpec) panics on any other spec
  | .valueSpec _ => none
  | .typeSpec _ => none

/-- The loop of `addImports` over the specs of an import declaration. -/
def addImportSpecs (buildImport : String → String → Option String) (srcDir : String)
    (st : Store) (specs : List Spec) : Option Store :=
  specs.foldlM (addImportSpec buildImport srcDir) st

/-- `func (ip ImportCache) addImports(imports map[string]string, decl ast.Decl, srcDir string)`.
The receiver and `imports` are the fields of `st`. -/
def addImports (buildImport : String → String → Option String) (st : Store)
    (decl : Decl) (srcDir : String) : Option Store :=
  match decl with
  | .genDecl Tok Specs =>
    -- if genDecl.Tok != token.IMPORT { return }
    if Tok ≠ Token.IMPORT then some st
    else addImportSpecs buildImport srcDir st Specs
  -- genDecl, ok := decl.(*ast.GenDecl); if !ok { return }
  | .badDecl => some st
  | .funcDecl _ => some st

/-! ## `processPackage` -/

/-- Modelled from the spec: the `MethodSpec` record, declared outside
`import_cache.go`. One eligible action method: method name, receiver struct
name, owning package, import table, source position. -/
structure MethodSpec where
  Name : String
  StructName : String
  ImportPath : String
  Imports : StringMap
  Pos : Nat
  deriving DecidableEq

/-- Modelled from the spec: the `TypeInfo` record (struct spec), declared
outside `import_cache.go`. One eligible struct declaration: struct name, owning
package import path, associated import table, source position, and the method
records attached to it by the aggregator. -/
structure TypeInfo where
  StructName : String
  ImportPath : String
  Imports : StringMap
  Pos : Nat
  MethodSpecs : List MethodSpec
  deriving DecidableEq

/-- Modelled from the spec: the `methodMap` type, declared outside
`import_cache.go`: a mapping from struct name to the ordered sequence of its
method records. -/
abbrev methodMap := Finmap fun _ : String => List MethodSpec

/-- The index expression `methodSpecs[name]`: the nil (empty) slice when absent. -/
def methodMap.index (m : methodMap) (name : String) : List MethodSpec :=
  (m.lookup name).getD []

/-- Modelled from the spec: the `SourceInfo` record, declared outside
`import_cache.go`; the three fields `processPackage` fills in. -/
structure SourceInfo where
  StructSpecs : List TypeInfo
  ValidationKeys : Finmap fun _ : String => LineKeys
  InitImportPaths : List String
  deriving DecidableEq

/-- The functions of the package that `processPackage` calls and that are
declared outside `import_cache.go`, taken as parameters. The `*token.FileSet`
argument of the source is left out (it is only handed on to them).
`appendAction` updates the method map it is given; the updated map is its
result here. -/
structure Extractors where
  appendStruct : List TypeInfo → String → Package → Decl → StringMap → List TypeInfo
  appendAction : methodMap → Decl → String → String → StringMap → methodMap
  getValidationKeys : FuncDecl → StringMap → LineKeys
  getFuncName : FuncDecl → String

/-- The variables of `processPackage` during the scan: the `Store` that
`addImports` works on (`imports` of the current file, the cache, and what left
the function), the four accumulators of the source, and a record of every call
of an extractor with the declaration and the import table handed to it. -/
structure ScanState where
  store : Store
  structSpecs : List TypeInfo
  initImportPaths : List String
  methodSpecs : methodMap
  validationKeys : Finmap fun _ : String => LineKeys
  structCalls : List (Decl × StringMap)
  actionCalls : List (Decl × StringMap)
  validationCalls : List (FuncDecl × StringMap)

/-- `scanControllers` of `processPackage` (lines 21, 22). -/
def scanControllers (pkgImportPath : String) : Bool :=
  HasSuffix pkgImportPath "/controllers" || Contains pkgImportPath "/controllers/"

/-- `scanTests` of `processPackage` (lines 23, 24). -/
def scanTests (pkgImportPath : String) : Bool :=
  HasSuffix pkgImportPath "/tests" || Contains pkgImportPath "/tests/"

/-- Lines 38 to 44: the struct and action extraction on one declaration. -/
def extractDecl (x : Extractors) (pkgImportPath : String) (pkg : Package)
    (st : ScanState) (decl : Decl) : ScanState :=
  let imports := st.store.imports
  if scanControllers pkgImportPath then
    { st with
      structSpecs := x.appendStruct st.structSpecs pkgImportPath pkg decl imports,
      methodSpecs := x.appendAction st.methodSpecs decl pkgImportPath pkg.Name imports,
      structCalls := st.structCalls ++ [(decl, imports)],
      actionCalls := st.actionCalls ++ [(decl, imports)] }
  else if scanTests pkgImportPath then
    { st with
      structSpecs := x.appendStruct st.structSpecs pkgImportPath pkg decl imports,
      structCalls := st.structCalls ++ [(decl, imports)] }
  else st

/-- Lines 47 to 58: what is done when the declaration is a function. -/
def scanFunc (x : Extractors) (pkgImportPath : String)
    (st : ScanState) (decl : Decl) : ScanState :=
  match decl with
  | .funcDecl funcDecl =>
    let imports := st.store.imports
    let lineKeys := x.getValidationKeys funcDecl imports
    let st1 : ScanState :=
      { st with validationCalls := st.validationCalls ++ [(funcDecl, imports)] }
    -- if len(lineKeys) > 0 { validationKeys[pkgImportPath+"."+getFuncName(funcDecl)] = lineKeys }
    let st2 : ScanState :=
      if lineKeys.keys.card > 0 then
        { st1 with validationKeys :=
            st1.validationKeys.insert (pkgImportPath ++ "." ++ x.getFuncName funcDecl) lineKeys }
      else st1
    -- if funcDecl.Name.Name == "init" { initImportPaths = []string{pkgImportPath} }
    if funcDecl.Name = "init" then { st2 with initImportPaths := [pkgImportPath] }
    else st2
  | .genDecl _ _ => st
  | .badDecl => st

/-- The body of the loop `for _, decl := range file.Decls` (lines 36 to 58). -/
def processDecl (x : Extractors) (buildImport : String → String → Option String)
    (pkgImportPath pkgPath : String) (pkg : Package)
    (st : ScanState) (decl : Decl) : Option ScanState :=
  -- ip.addImports(imports, decl, pkgPath)
  match addImports buildImport st.store decl pkgPath with
  | none => none
  | some store =>
    some (scanFunc x pkgImportPath
      (extractDecl x pkgImportPath pkg { st with store := store } decl) decl)

/-- The body of the loop `for _, file := range pkg.Files` (lines 32 to 59):
a new empty `imports`, then every declaration of the file. -/
def processFile (x : Extractors) (buildImport : String → String → Option String)
    (pkgImportPath pkgPath : String) (pkg : Package)
    (st : ScanState) (file : File) : Option ScanState :=
  -- imports := map[string]string{}
  file.Decls.foldlM (processDecl x buildImport pkgImportPath pkgPath pkg)
    { st with store := { st.store with imports := ∅ } }

/-- The variables of `processPackage` at its start (lines 15 to 25), for a
receiver `ip`; nothing has left the function yet. -/
def initialScan (ip : ImportCache) : ScanState :=
  { store := { imports := ∅, ip := ip, importerCalls := [], trace := [] },
    structSpecs := [], initImportPaths := [], methodSpecs := ∅, validationKeys := ∅,
    structCalls := [], actionCalls := [], validationCalls := [] }

/-- The scan of `processPackage` (lines 15 to 60): all files, from the initial
variables. -/
def scanPackage (x : Extractors) (buildImport : String → String → Option String)
    (ip : ImportCache) (pkgImportPath pkgPath : String) (pkg : Package) : Option ScanState :=
  pkg.Files.foldlM (processFile x buildImport pkgImportPath pkgPath pkg) (initialScan ip)

/-- Lines 62 to 71: the method specs are attached to the struct specs and the
`SourceInfo` is built. -/
def sourceInfo (st : ScanState) : SourceInfo :=
  { StructSpecs := st.structSpecs.map fun spec =>
      { spec with MethodSpecs := st.methodSpecs.index spec.StructName },
    ValidationKeys := st.validationKeys,
    InitImportPaths := st.initImportPaths }

/-- `func (ip ImportCache) processPackage(fset, pkgImportPath, pkgPath, pkg) *SourceInfo`:
the returned `SourceInfo`, or `none` when the scan panics. -/
def processPackage (x : Extractors) (buildImport : String → String → Option String)
    (ip : ImportCache) (pkgImportPath pkgPath : String) (pkg : Package) : Option SourceInfo :=
  (scanPackage x buildImport ip pkgImportPath pkgPath pkg).map sourceInfo

/-- The calls `ip.addImports(imports, decl, pkgPath)` of the loop over
`file.Decls` (line 36), in order, on the store alone. -/
def addImportsDecls (buildImport : String → String → Option String) (srcDir : String)
    (st : Store) (decls : List Decl) : Option Store :=
  decls.foldlM (fun s decl => addImports buildImport s decl srcDir) st

/-! ## Predicates used to state the properties -/

/-- The specs on which the loop body of `addImports` does not panic: an import
spec that is blank (the pass ends before the path is read) or whose path
literal is long enough to be sliced (lines 85 and 94). -/
def specOk : Spec → Bool
  | .importSpec s => s.Name = some "_" || decide (2 ≤ len s.Path)
  | .valueSpec _ => false
  | .typeSpec _ => false

/-- The declarations on which `addImports` does not panic. -/
def declOk : Decl → Bool
  | .genDecl .IMPORT Specs => Specs.all specOk
  | _ => true

/-- The packages on which the scan of `processPackage` does not panic. -/
def packageOk (pkg : Package) : Bool :=
  pkg.Files.all fun file => file.Decls.all declOk

/-- The function declaration in a declaration, if it is one (the type
assertion `decl.(*ast.FuncDecl)` of line 47). -/
def funcOf : Decl → Option FuncDecl
  | .funcDecl f => some f
  | .genDecl _ _ => none
  | .badDecl => none

/-- The function declarations of a package, in the order of the scan. -/
def funcDecls (pkg : Package) : List FuncDecl :=
  pkg.Files.flatMap fun file => file.Decls.filterMap funcOf

/-- The test of lines 47 and 55 on a declaration: a function declaration whose
`Name.Name` is `init`. -/
def isInit : Decl → Bool
  | .funcDecl f => f.Name = "init"
  | .genDecl _ _ => false
  | .badDecl => false

/-- A package that has a function declaration named `init` in one of its files. -/
def declaresInit (pkg : Package) : Bool :=
  pkg.Files.any fun file => file.Decls.any isInit

/-- What the scan knows about the validation keys at every moment: every entry
is the non-empty mapping returned by a validation scan that was run on a
function declaration with that identifier, and every such scan has an entry. -/
def KeysFromScans (x : Extractors) (pkgImportPath : String) (s : ScanState) : Prop :=
  (∀ k v, s.validationKeys.lookup k = some v →
      ∃ c ∈ s.validationCalls, v = x.getValidationKeys c.1 c.2 ∧ 0 < v.keys.card
        ∧ k = pkgImportPath ++ "." ++ x.getFuncName c.1)
  ∧ (∀ c ∈ s.validationCalls, 0 < (x.getValidationKeys c.1 c.2).keys.card →
      pkgImportPath ++ "." ++ x.getFuncName c.1 ∈ s.validationKeys)

/-! ## Sample data, from the scenarios of the specification -/

/-- A store in which nothing has happened yet: empty table, empty cache. -/
def emptyStore : Store :=
  { imports := ∅, ip := ∅, importerCalls := [], trace := [] }

/-- An importer that finds `sample/app/models`, declared name `models`, and
fails on every other path (so on the routes that are not generated yet). -/
def modelsImporter : String → String → Option String :=
  fun path _ => if path = "sample/app/models" then some "models" else none

/-- An importer that fails on every path. -/
def failingImporter : String → String → Option String :=
  fun _ _ => none

/-- The store after `import "sample/app/models"` has been resolved once. -/
def modelsStore : Store :=
  { imports := Finmap.insert "models" "sample/app/models" ∅,
    ip := Finmap.insert "sample/app/models" "models" ∅,
    importerCalls := [("sample/app/models", "src")],
    trace := [] }

/-- A store whose cache holds the empty string for `sample/app/models`. -/
def emptyAliasStore : Store :=
  { imports := ∅,
    ip := Finmap.insert "sample/app/models" "" ∅,
    importerCalls := [],
    trace := [] }

/-- The spec `"sample/app/models"` without an alias. -/
def modelsSpec : Spec :=
  .importSpec { Name := none, Path := "\"sample/app/models\"" }

/-- The spec `"sample/app/routes"` without an alias. -/
def routesSpec : Spec :=
  .importSpec { Name := none, Path := "\"sample/app/routes\"" }

/-- Sample extractors for the scenarios (the extractors of the package are
declared outside `import_cache.go`): no struct and no action is extracted, a
function is named by its `Name`, and the validation scan finds the call of the
specification's scenario, `Validation.Required(user.Name)` at line 42, in a
body that consists of it, and nothing in any other body. -/
def sampleExtractors : Extractors :=
  { appendStruct := fun structSpecs _ _ _ _ => structSpecs,
    appendAction := fun methodSpecs _ _ _ _ => methodSpecs,
    getValidationKeys := fun funcDecl _ =>
      if funcDecl.Body = "Validation.Required(user.Name)" then Finmap.insert 42 "user.Name" ∅
      else ∅,
    getFuncName := fun funcDecl => funcDecl.Name }

/-- A file that imports two packages under the same explicit alias:
`import ( foo "a/b"; foo "c/d" )`. -/
def twoAliasFile : File :=
  { Decls := [.genDecl .IMPORT [.importSpec ⟨some "foo", "\"a/b\""⟩,
                                 .importSpec ⟨some "foo", "\"c/d\""⟩]] }

/-- A file with `import m "sample/app/models"` followed by `import "fmt"`. -/
def aliasFile : File :=
  { Decls := [.genDecl .IMPORT [.importSpec ⟨some "m", "\"sample/app/models\""⟩],
              .genDecl .IMPORT [.importSpec ⟨none, "\"fmt\""⟩]] }

/-- An `init` function whose body is the validation call of the scenario. -/
def validatingInit : FuncDecl :=
  { Recv := none, Name := "init", Params := [], Body := "Validation.Required(user.Name)" }

/-- An `init` function with an empty body. -/
def emptyInit : FuncDecl :=
  { Recv := none, Name := "init", Params := [], Body := "" }

/-- A package with two `init` functions (Go allows any number of them), the
first with a validation call, the second without. -/
def twoInitPackage : Package :=
  { Name := "controllers",
    Files := [{ Decls := [.funcDecl validatingInit, .funcDecl emptyInit] }] }

/-- A package with one file that imports `sample/app/models` and declares a
function `index` without validation calls. -/
def plainPackage : Package :=
  { Name := "controllers",
    Files := [{ Decls := [.genDecl .IMPORT [modelsSpec],
                          .funcDecl ⟨none, "index", [], ""⟩] }] }

/-! ## Further predicates and sample data -/

/-- All declarations of a package, file after file, in the order of the scan. -/
def allDecls (pkg : Package) : List Decl :=
  pkg.Files.flatMap fun file => file.Decls

/-- A method `init` of the struct `Users`, without parameters:
`func (u Users) init() {}`. It is not the initializer of its package. -/
def initMethod : FuncDecl :=
  { Recv := some "Users", Name := "init", Params := [], Body := "" }

/-- A function named `init` that takes a parameter: `func init(x int) {}`. -/
def initWithParam : FuncDecl :=
  { Recv := none, Name := "init", Params := ["x"], Body := "" }

/-- The segments of an import path, in the specification's sense: the pieces
between its slashes. -/
def pathSegments (p : String) : List String :=
  (p.data.splitOn '/').map String.mk

/-- The method map with one more record, appended to the entry of its receiver
struct name (`mm[name] = append(mm[name], method)`). -/
def insertMethod (m : methodMap) (ms : MethodSpec) : methodMap :=
  m.insert ms.StructName (m.index ms.StructName ++ [ms])

/-- Modelled from the spec: what `appendAction`, declared outside
`import_cache.go`, does to the method map it is given. The records are "grouped
by receiver struct name into a mapping from struct name to ordered sequence of
MethodSpec (insertion order = declaration order)": when `action` extracts a
record from the declaration, the record is appended to the entry of its
receiver struct name, and otherwise the map is left alone. -/
def GroupsByReceiver (x : Extractors)
    (action : Decl → String → String → StringMap → Option MethodSpec) : Prop :=
  ∀ (m : methodMap) (decl : Decl) (pkgImportPath pkgName : String) (imports : StringMap),
    x.appendAction m decl pkgImportPath pkgName imports
      = match action decl pkgImportPath pkgName imports with
        | none => m
        | some ms => insertMethod m ms

/-- The method records collected by the calls of `appendAction`, in the order
of the calls. -/
def collected (action : Decl → String → String → StringMap → Option MethodSpec)
    (pkgImportPath pkgName : String) (calls : List (Decl × StringMap)) : List MethodSpec :=
  calls.filterMap fun c => action c.1 pkgImportPath pkgName c.2

/-- A sample action extraction: every method (a function declaration with a
receiver) is an action of its receiver. -/
def methodAction : Decl → String → String → StringMap → Option MethodSpec
  | .funcDecl f, pkgImportPath, _, imports =>
    match f.Recv with
    | some recv => some ⟨f.Name, recv, pkgImportPath, imports, 0⟩
    | none => none
  | .genDecl _ _, _, _, _ => none
  | .badDecl, _, _, _ => none

/-- Sample extractors that extract something (the extractors of the package
are declared outside `import_cache.go`): every type spec of a type declaration
is a struct, every method is an action of its receiver; the validation scan and
the function names are those of `sampleExtractors`. -/
def usersExtractors : Extractors :=
  { appendStruct := fun structSpecs pkgImportPath _ decl imports =>
      match decl with
      | .genDecl .TYPE Specs =>
        structSpecs ++ Specs.filterMap fun spec =>
          match spec with
          | .typeSpec name => some ⟨name, pkgImportPath, imports, 0, []⟩
          | .importSpec _ => none
          | .valueSpec _ => none
      | _ => structSpecs,
    appendAction := fun methodSpecs decl pkgImportPath pkgName imports =>
      match methodAction decl pkgImportPath pkgName imports with
      | none => methodSpecs
      | some ms => insertMethod methodSpecs ms,
    getValidationKeys := sampleExtractors.getValidationKeys,
    getFuncName := sampleExtractors.getFuncName }

/-- The method `func (c Users) List() {}`. -/
def listMethod : FuncDecl :=
  { Recv := some "Users", Name := "List", Params := [], Body := "" }

/-- The package of the specification's scenario: `import "sample/app/models"`,
a struct `Users` and its method `List`. -/
def usersPackage : Package :=
  { Name := "controllers",
    Files := [{ Decls := [.genDecl .IMPORT [modelsSpec],
                          .genDecl .TYPE [.typeSpec "Users"],
                          .funcDecl listMethod] }] }

/-- The entry of a struct name in the method map is the sequence of the
collected records with that receiver, in the order of collection. -/
def GroupedSoFar (action : Decl → String → String → StringMap → Option MethodSpec)
    (pkgImportPath pkgName : String) (s : ScanState) : Prop :=
  ∀ name : String,
    s.methodSpecs.index name
      = (collected action pkgImportPath pkgName s.actionCalls).filter
          fun ms => ms.StructName = name

/-- The path of an import spec other than a blank one: its path literal without
the quote characters. -/
def specPath : Spec → Option String
  | .importSpec s => if s.Name = some "_" then none else slice s.Path 1 (len s.Path - 1)
  | .valueSpec _ => none
  | .typeSpec _ => none

/-- The paths of the import specs, other than blank ones, of a declaration. -/
def declPaths : Decl → List String
  | .genDecl .IMPORT Specs => Specs.filterMap specPath
  | _ => []

/-- The paths of the import specs, other than blank ones, declared in a file. -/
def filePaths (file : File) : List String :=
  file.Decls.flatMap declPaths

/-- A table all of whose entries `alias -> path` have their path in `paths`. -/
def TableFrom (paths : List String) (T : StringMap) : Prop :=
  ∀ k p : String, T.lookup k = some p → p ∈ paths

/-- The calls recorded since `before`: the record has grown by calls whose
table has all its paths in `paths`. -/
def CallsFrom {α : Type} (paths : List String) (before now : List (α × StringMap)) : Prop :=
  ∃ new : List (α × StringMap), now = before ++ new ∧ ∀ c ∈ new, TableFrom paths c.2

/-- The state of the scan while a file is processed, against the state `st` at
the start of the file: the current table and every table handed to an
extractor since then have all their paths in `paths`. -/
def FileTables (paths : List String) (st s : ScanState) : Prop :=
  TableFrom paths s.store.imports
  ∧ CallsFrom paths st.structCalls s.structCalls
  ∧ CallsFrom paths st.actionCalls s.actionCalls
  ∧ CallsFrom paths st.validationCalls s.validationCalls

/-- A package with two files: the first imports `sample/app/models`, the second
is `twoAliasFile`. -/
def twoFilePackage : Package :=
  { Name := "controllers",
    Files := [{ Decls := [.genDecl .IMPORT [modelsSpec]] }, twoAliasFile] }

/-- The cache agrees with the importer: every entry is the name the importer
returns for that path from the directory `srcDir`. -/
def CacheAgrees (buildImport : String → String → Option String) (srcDir : String)
    (ip : ImportCache) : Prop :=
  ∀ p a : String, ip.lookup p = some a → buildImport p srcDir = some a

/-- Two stores with the same table and with caches that both agree with the
importer. -/
def SameTable (buildImport : String → String → Option String) (srcDir : String)
    (s1 s2 : Store) : Prop :=
  s1.imports = s2.imports ∧ CacheAgrees buildImport srcDir s1.ip
    ∧ CacheAgrees buildImport srcDir s2.ip

/-- Two outcomes that are both a panic, or both a normal return with the same
table and caches that agree with the importer. -/
def SameOutcome (buildImport : String → String → Option String) (srcDir : String) :
    Option Store → Option Store → Prop
  | some s1, some s2 => SameTable buildImport srcDir s1 s2
  | none, none => True
  | some _, none => False
  | none, some _ => False

/-! ## The loop of `addImports`, pass by pass -/

section Steps

variable (buildImport : String → String → Option String) (srcDir : String)

theorem addImports_importDecl (st : Store) (specs : List Spec) :
    addImports buildImport st (.genDecl .IMPORT specs) srcDir
      = addImportSpecs buildImport srcDir st specs := by
  simp [addImports]

theorem addImportSpecs_nil (st : Store) :
    addImportSpecs buildImport srcDir st [] = some st := by
  simp [addImportSpecs]

theorem addImportSpecs_cons (st : Store) (s : Spec) (post : List Spec) :
    addImportSpecs buildImport srcDir st (s :: post)
      = (addImportSpec buildImport srcDir st s).bind fun mid =>
          addImportSpecs buildImport srcDir mid post := by
  simp [addImportSpecs, List.foldlM_cons]

theorem addImportSpecs_append (st : Store) (pre post : List Spec) :
    addImportSpecs buildImport srcDir st (pre ++ post)
      = (addImportSpecs buildImport srcDir st pre).bind fun mid =>
          addImportSpecs buildImport srcDir mid post := by
  simp [addImportSpecs, List.foldlM_append]

theorem addImports_split (st : Store) (pre post : List Spec) (s : Spec) :
    addImports buildImport st (.genDecl .IMPORT (pre ++ s :: post)) srcDir
      = (addImportSpecs buildImport srcDir st pre).bind fun mid =>
          (addImportSpec buildImport srcDir mid s).bind fun mid' =>
            addImportSpecs buildImport srcDir mid' post := by
  rw [addImports_importDecl, addImportSpecs_append]
  simp only [addImportSpecs_cons]

theorem addImportSpec_blank (st : Store) (q : String) :
    addImportSpec buildImport srcDir st (.importSpec ⟨some "_", q⟩) = some st := by
  simp [addImportSpec]

theorem addImportSpec_explicit (st : Store) (A q : String) (hA : A ≠ "") (hB : A ≠ "_") :
    addImportSpec buildImport srcDir st (.importSpec ⟨some A, q⟩)
      = (slice q 1 (len q - 1)).map fun P => { st with imports := st.imports.insert A P } := by
  simp only [addImportSpec, hA, hB, and_false, if_false]
  cases slice q 1 (len q - 1) <;> simp

theorem addImportSpec_hit (st : Store) (q P : String) (hq : slice q 1 (len q - 1) = some P)
    (hc : index st.ip P ≠ "") :
    addImportSpec buildImport srcDir st (.importSpec ⟨none, q⟩)
      = some { st with imports := st.imports.insert (index st.ip P) P } := by
  simp [addImportSpec, hq, hc]

theorem addImportSpec_resolved (st : Store) (q P N : String)
    (hq : slice q 1 (len q - 1) = some P) (hc : index st.ip P = "")
    (hi : buildImport P srcDir = some N) :
    addImportSpec buildImport srcDir st (.importSpec ⟨none, q⟩)
      = some { st with importerCalls := st.importerCalls ++ [(P, srcDir)],
                       ip := st.ip.insert P N,
                       imports := st.imports.insert N P } := by
  simp [addImportSpec, hq, hc, hi]

theorem addImportSpec_failed (st : Store) (q P : String)
    (hq : slice q 1 (len q - 1) = some P) (hc : index st.ip P = "")
    (hi : buildImport P srcDir = none) :
    addImportSpec buildImport srcDir st (.importSpec ⟨none, q⟩)
      = some { st with importerCalls := st.importerCalls ++ [(P, srcDir)],
                       trace := if HasSuffix P "/app/routes" then st.trace
                                else st.trace ++ ["Could not find import: " ++ P] } := by
  simp only [addImportSpec, hq, hc, hi]
  by_cases h : HasSuffix P "/app/routes" <;> simp [h]

theorem index_of_lookup {m : StringMap} {k v : String} (h : m.lookup k = some v) :
    index m k = v := by
  simp [index, h]

/-- The four ways in which one pass of the loop body ends normally. -/
theorem addImportSpec_cases {st st' : Store} {spec : Spec}
    (h : addImportSpec buildImport srcDir st spec = some st') :
    st' = st
    ∨ (∃ A P, A ≠ "" ∧ st' = { st with imports := st.imports.insert A P })
    ∨ (∃ P N, index st.ip P = "" ∧ buildImport P srcDir = some N ∧
        st' = { st with importerCalls := st.importerCalls ++ [(P, srcDir)],
                        ip := st.ip.insert P N,
                        imports := st.imports.insert N P })
    ∨ (∃ P, index st.ip P = "" ∧ buildImport P srcDir = none ∧
        st' = { st with importerCalls := st.importerCalls ++ [(P, srcDir)],
                        trace := if HasSuffix P "/app/routes" then st.trace
                                 else st.trace ++ ["Could not find import: " ++ P] }) := by
  cases spec with
  | valueSpec n => simp [addImportSpec] at h
  | typeSpec n => simp [addImportSpec] at h
  | importSpec s =>
    obtain ⟨name, q⟩ := s
    cases hq : slice q 1 (len q - 1) with
    | none =>
      left
      simp only [addImportSpec, hq] at h
      split at h
      · exact (Option.some.inj h).symm
      · simp at h
    | some P =>
      cases name with
      | some A =>
        by_cases hB : A = "_"
        · left
          subst hB
          rw [addImportSpec_blank] at h
          exact (Option.some.inj h).symm
        · by_cases hA : A = ""
          · subst hA
            by_cases hc : index st.ip P = ""
            · cases hi : buildImport P srcDir with
              | none =>
                right; right; right
                refine ⟨P, hc, hi, ?_⟩
                simp only [addImportSpec, hq, hc, hi] at h
                by_cases hs : HasSuffix P "/app/routes" <;> simp [hs] at h <;> simp [hs, ← h]
              | some N =>
                right; right; left
                refine ⟨P, N, hc, hi, ?_⟩
                simp [addImportSpec, hq, hc, hi] at h
                exact h.symm
            · right; left
              refine ⟨index st.ip P, P, hc, ?_⟩
              simp [addImportSpec, hq, hc] at h
              exact h.symm
          · right; left
            refine ⟨A, P, hA, ?_⟩
            rw [addImportSpec_explicit _ _ _ _ _ hA hB, hq] at h
            exact (Option.some.inj h).symm
      | none =>
        by_cases hc : index st.ip P = ""
        · cases hi : buildImport P srcDir with
          | none =>
            right; right; right
            refine ⟨P, hc, hi, ?_⟩
            rw [addImportSpec_failed _ _ _ _ _ hq hc hi] at h
            exact (Option.some.inj h).symm
          | some N =>
            right; right; left
            refine ⟨P, N, hc, hi, ?_⟩
            rw [addImportSpec_resolved _ _ _ _ _ _ hq hc hi] at h
            exact (Option.some.inj h).symm
        · right; left
          refine ⟨index st.ip P, P, hc, ?_⟩
          rw [addImportSpec_hit _ _ _ _ _ hq hc] at h
          exact (Option.some.inj h).symm

/-- A property kept by every normal pass of a loop body is kept by the loop. -/
theorem foldlM_keeps {σ α : Type} (f : σ → α → Option σ) (Inv : σ → Prop)
    (hstep : ∀ s a s', Inv s → f s a = some s' → Inv s') :
    ∀ (l : List α) (s s' : σ), Inv s → l.foldlM f s = some s' → Inv s' := by
  intro l
  induction l with
  | nil =>
    intro s s' hs h
    simp at h
    exact h ▸ hs
  | cons a l ih =>
    intro s s' hs h
    rw [List.foldlM_cons] at h
    cases hfa : f s a with
    | none => simp [hfa] at h
    | some s1 =>
      simp [hfa] at h
      exact ih s1 s' (hstep s a s1 hs hfa) h

theorem addImportSpec_keeps_alias {st st' : Store} {spec : Spec} {P a : String}
    (h : addImportSpec buildImport srcDir st spec = some st')
    (hc : st.ip.lookup P = some a) (ha : a ≠ "") :
    st'.ip.lookup P = some a := by
  rcases addImportSpec_cases buildImport srcDir h with h1 | ⟨A, Q, _, h1⟩ | ⟨Q, N, hQ, _, h1⟩
    | ⟨Q, _, _, h1⟩
  · rw [h1]; exact hc
  · rw [h1]; exact hc
  · have hne : P ≠ Q := by
      intro hPQ
      subst hPQ
      rw [index_of_lookup hc] at hQ
      exact ha hQ
    rw [h1]
    simp only
    rw [Finmap.lookup_insert_of_ne _ hne]
    exact hc
  · rw [h1]; exact hc

theorem addImports_keeps_alias {st st' : Store} {decl : Decl} {P a : String}
    (h : addImports buildImport st decl srcDir = some st')
    (hc : st.ip.lookup P = some a) (ha : a ≠ "") :
    st'.ip.lookup P = some a := by
  cases decl with
  | badDecl => simp [addImports] at h; exact h ▸ hc
  | funcDecl f => simp [addImports] at h; exact h ▸ hc
  | genDecl Tok Specs =>
    cases Tok
    case IMPORT =>
      rw [addImports_importDecl] at h
      exact foldlM_keeps (addImportSpec buildImport srcDir) (fun s => s.ip.lookup P = some a)
        (fun s sp s' hs hstep => addImportSpec_keeps_alias buildImport srcDir hstep hs ha)
        Specs st st' hc h
    all_goals
      simp [addImports] at h
      exact h ▸ hc

theorem extractDecl_store (x : Extractors) (pkgImportPath : String) (pkg : Package)
    (st : ScanState) (decl : Decl) :
    (extractDecl x pkgImportPath pkg st decl).store = st.store := by
  unfold extractDecl
  split_ifs <;> rfl

theorem scanFunc_store (x : Extractors) (pkgImportPath : String)
    (st : ScanState) (decl : Decl) :
    (scanFunc x pkgImportPath st decl).store = st.store := by
  cases decl with
  | badDecl => rfl
  | genDecl t s => rfl
  | funcDecl f =>
    simp only [scanFunc]
    split_ifs <;> rfl

/-- On the store, one pass of the declaration loop is the call of `addImports`. -/
theorem processDecl_store {x : Extractors} {pkgImportPath pkgPath : String} {pkg : Package}
    {st st' : ScanState} {decl : Decl}
    (h : processDecl x buildImport pkgImportPath pkgPath pkg st decl = some st') :
    addImports buildImport st.store decl pkgPath = some st'.store := by
  unfold processDecl at h
  cases ha : addImports buildImport st.store decl pkgPath with
  | none => simp [ha] at h
  | some store =>
    simp only [ha, Option.some.injEq] at h
    rw [← h, scanFunc_store, extractDecl_store]

theorem processFile_keeps_alias {x : Extractors} {pkgImportPath pkgPath : String}
    {pkg : Package} {st st' : ScanState} {file : File} {P a : String}
    (h : processFile x buildImport pkgImportPath pkgPath pkg st file = some st')
    (hc : st.store.ip.lookup P = some a) (ha : a ≠ "") :
    st'.store.ip.lookup P = some a := by
  unfold processFile at h
  refine foldlM_keeps (processDecl x buildImport pkgImportPath pkgPath pkg)
    (fun s => s.store.ip.lookup P = some a)
    (fun s d s' hs hstep =>
      addImports_keeps_alias buildImport pkgPath (processDecl_store buildImport hstep) hs ha)
    file.Decls _ st' ?_ h
  exact hc

theorem scanPackage_keeps_alias {x : Extractors} {ip : ImportCache}
    {pkgImportPath pkgPath : String} {pkg : Package} {st' : ScanState} {P a : String}
    (h : scanPackage x buildImport ip pkgImportPath pkgPath pkg = some st')
    (hc : ip.lookup P = some a) (ha : a ≠ "") :
    st'.store.ip.lookup P = some a := by
  unfold scanPackage at h
  refine foldlM_keeps (processFile x buildImport pkgImportPath pkgPath pkg)
    (fun s => s.store.ip.lookup P = some a)
    (fun s f s' hs hstep => processFile_keeps_alias buildImport hstep hs ha)
    pkg.Files _ st' ?_ h
  exact hc

end Steps

section Reach

variable (buildImport : String → String → Option String) (srcDir : String)

/-- When the specs before a spec leave the store `st` and the pass over the
spec leaves `st'`, the declaration goes on with the specs after it from `st'`. -/
theorem addImports_reach {st0 st st' : Store} {pre : List Spec} {s : Spec}
    (hpre : addImportSpecs buildImport srcDir st0 pre = some st)
    (hstep : addImportSpec buildImport srcDir st s = some st') (post : List Spec) :
    addImports buildImport st0 (.genDecl .IMPORT (pre ++ s :: post)) srcDir
      = addImportSpecs buildImport srcDir st' post := by
  rw [addImports_split, hpre]
  show (addImportSpec buildImport srcDir st s).bind _ = _
  rw [hstep]
  rfl

theorem addImportSpec_keeps_names {st st' : Store} {spec : Spec}
    (himp : ∀ p d, buildImport p d ≠ some "")
    (h : addImportSpec buildImport srcDir st spec = some st')
    (hc : ∀ p, st.ip.lookup p ≠ some "") :
    ∀ p, st'.ip.lookup p ≠ some "" := by
  rcases addImportSpec_cases buildImport srcDir h with h1 | ⟨A, Q, _, h1⟩ | ⟨Q, N, _, hN, h1⟩
    | ⟨Q, _, _, h1⟩
  · rw [h1]; exact hc
  · rw [h1]; exact hc
  · intro p
    rw [h1]
    simp only
    by_cases hpQ : p = Q
    · subst hpQ
      rw [Finmap.lookup_insert]
      intro hcontra
      apply himp p srcDir
      rw [hN, hcontra]
    · rw [Finmap.lookup_insert_of_ne _ hpQ]
      exact hc p
  · rw [h1]; exact hc

theorem addImports_keeps_names {st st' : Store} {decl : Decl}
    (himp : ∀ p d, buildImport p d ≠ some "")
    (h : addImports buildImport st decl srcDir = some st')
    (hc : ∀ p, st.ip.lookup p ≠ some "") :
    ∀ p, st'.ip.lookup p ≠ some "" := by
  cases decl with
  | badDecl => simp [addImports] at h; exact h ▸ hc
  | funcDecl f => simp [addImports] at h; exact h ▸ hc
  | genDecl Tok Specs =>
    cases Tok
    case IMPORT =>
      rw [addImports_importDecl] at h
      exact foldlM_keeps (addImportSpec buildImport srcDir)
        (fun s => ∀ p, s.ip.lookup p ≠ some "")
        (fun s sp s' hs hstep => addImportSpec_keeps_names buildImport srcDir himp hstep hs)
        Specs st st' hc h
    all_goals
      simp [addImports] at h
      exact h ▸ hc

end Reach

/-! ## The import table is only written -/

section Table

variable (buildImport : String → String → Option String) (srcDir : String)

theorem addImportSpec_emptyName (st : Store) (q : String) :
    addImportSpec buildImport srcDir st (.importSpec ⟨some "", q⟩)
      = addImportSpec buildImport srcDir st (.importSpec ⟨none, q⟩) := by
  simp [addImportSpec]

theorem addImportSpec_unsliced (st : Store) (q : String)
    (hq : slice q 1 (len q - 1) = none) :
    addImportSpec buildImport srcDir st (.importSpec ⟨none, q⟩) = none := by
  simp [addImportSpec, hq]

theorem addImportSpec_table_unaliased (st : Store) (T : StringMap) (q : String) :
    addImportSpec buildImport srcDir { st with imports := st.imports ∪ T }
        (.importSpec ⟨none, q⟩)
      = (addImportSpec buildImport srcDir st (.importSpec ⟨none, q⟩)).map
          fun r => { r with imports := r.imports ∪ T } := by
  cases hq : slice q 1 (len q - 1) with
  | none =>
    rw [addImportSpec_unsliced _ _ _ _ hq, addImportSpec_unsliced _ _ _ _ hq]
    rfl
  | some P =>
    by_cases hc : index st.ip P = ""
    · cases hi : buildImport P srcDir with
      | none =>
        rw [addImportSpec_failed _ _ st _ _ hq hc hi,
          addImportSpec_failed _ _ { st with imports := st.imports ∪ T } _ _ hq hc hi]
        rfl
      | some N =>
        rw [addImportSpec_resolved _ _ st _ _ _ hq hc hi,
          addImportSpec_resolved _ _ { st with imports := st.imports ∪ T } _ _ _ hq hc hi]
        simp [Finmap.insert_union]
    · rw [addImportSpec_hit _ _ st _ _ hq hc,
        addImportSpec_hit _ _ { st with imports := st.imports ∪ T } _ _ hq hc]
      simp [Finmap.insert_union]

/-- `addImports` never reads the table: on a table extended below by `T` the
pass does the same and leaves the same table extended below by `T`. -/
theorem addImportSpec_table (st : Store) (T : StringMap) (spec : Spec) :
    addImportSpec buildImport srcDir { st with imports := st.imports ∪ T } spec
      = (addImportSpec buildImport srcDir st spec).map
          fun r => { r with imports := r.imports ∪ T } := by
  cases spec with
  | valueSpec n => simp [addImportSpec]
  | typeSpec n => simp [addImportSpec]
  | importSpec s =>
    obtain ⟨name, q⟩ := s
    cases name with
    | none => exact addImportSpec_table_unaliased buildImport srcDir st T q
    | some A =>
      by_cases hB : A = "_"
      · subst hB
        rw [addImportSpec_blank, addImportSpec_blank]
        rfl
      · by_cases hA : A = ""
        · subst hA
          rw [addImportSpec_emptyName, addImportSpec_emptyName]
          exact addImportSpec_table_unaliased buildImport srcDir st T q
        · rw [addImportSpec_explicit _ _ _ _ _ hA hB, addImportSpec_explicit _ _ _ _ _ hA hB]
          cases slice q 1 (len q - 1) with
          | none => rfl
          | some P => simp [Finmap.insert_union]

theorem addImportSpecs_table (specs : List Spec) :
    ∀ (st : Store) (T : StringMap),
    addImportSpecs buildImport srcDir { st with imports := st.imports ∪ T } specs
      = (addImportSpecs buildImport srcDir st specs).map
          fun r => { r with imports := r.imports ∪ T } := by
  induction specs with
  | nil => intro st T; simp [addImportSpecs_nil]
  | cons s post ih =>
    intro st T
    rw [addImportSpecs_cons, addImportSpecs_cons, addImportSpec_table]
    cases addImportSpec buildImport srcDir st s with
    | none => rfl
    | some mid => exact ih mid T

theorem addImports_table (st : Store) (T : StringMap) (decl : Decl) :
    addImports buildImport { st with imports := st.imports ∪ T } decl srcDir
      = (addImports buildImport st decl srcDir).map
          fun r => { r with imports := r.imports ∪ T } := by
  cases decl with
  | badDecl => rfl
  | funcDecl f => rfl
  | genDecl Tok Specs =>
    cases Tok
    case IMPORT =>
      rw [addImports_importDecl, addImports_importDecl]
      exact addImportSpecs_table buildImport srcDir Specs st T
    all_goals rfl

theorem addImportsDecls_cons (st : Store) (d : Decl) (ds : List Decl) :
    addImportsDecls buildImport srcDir st (d :: ds)
      = (addImports buildImport st d srcDir).bind fun mid =>
          addImportsDecls buildImport srcDir mid ds := by
  simp [addImportsDecls, List.foldlM_cons]

theorem addImportsDecls_append (st : Store) (ds ds' : List Decl) :
    addImportsDecls buildImport srcDir st (ds ++ ds')
      = (addImportsDecls buildImport srcDir st ds).bind fun mid =>
          addImportsDecls buildImport srcDir mid ds' := by
  simp [addImportsDecls, List.foldlM_append]

theorem addImportsDecls_table (decls : List Decl) :
    ∀ (st : Store) (T : StringMap),
    addImportsDecls buildImport srcDir { st with imports := st.imports ∪ T } decls
      = (addImportsDecls buildImport srcDir st decls).map
          fun r => { r with imports := r.imports ∪ T } := by
  induction decls with
  | nil => intro st T; simp [addImportsDecls]
  | cons d ds ih =>
    intro st T
    rw [addImportsDecls_cons, addImportsDecls_cons, addImports_table]
    cases addImports buildImport st d srcDir with
    | none => rfl
    | some mid => exact ih mid T

/-- On the store, the declaration loop of a file is the sequence of its
`addImports` calls. -/
theorem processDecls_store (x : Extractors) (pkgImportPath pkgPath : String) (pkg : Package)
    (decls : List Decl) :
    ∀ st : ScanState,
    (decls.foldlM (processDecl x buildImport pkgImportPath pkgPath pkg) st).map (fun s => s.store)
      = addImportsDecls buildImport pkgPath st.store decls := by
  induction decls with
  | nil => intro st; simp [addImportsDecls]
  | cons d ds ih =>
    intro st
    rw [List.foldlM_cons, addImportsDecls_cons]
    cases h : processDecl x buildImport pkgImportPath pkgPath pkg st d with
    | none =>
      have hnone : addImports buildImport st.store d pkgPath = none := by
        unfold processDecl at h
        cases ha : addImports buildImport st.store d pkgPath with
        | none => rfl
        | some store => simp [ha] at h
      rw [hnone]
      rfl
    | some s1 =>
      rw [processDecl_store buildImport h]
      exact ih s1

theorem processFile_store (x : Extractors) (pkgImportPath pkgPath : String) (pkg : Package)
    (st : ScanState) (file : File) :
    (processFile x buildImport pkgImportPath pkgPath pkg st file).map (fun s => s.store)
      = addImportsDecls buildImport pkgPath { st.store with imports := ∅ } file.Decls := by
  unfold processFile
  rw [processDecls_store]

end Table

/-! ## When the scan ends normally -/

section Normal

variable (buildImport : String → String → Option String) (srcDir : String)

/-- A loop whose body ends normally exactly on the elements that are `ok` ends
normally exactly on the lists whose elements are all `ok`. -/
theorem foldlM_isSome {σ α : Type} (f : σ → α → Option σ) (ok : α → Bool)
    (hf : ∀ s a, (f s a).isSome = ok a) :
    ∀ (l : List α) (s : σ), (l.foldlM f s).isSome = l.all ok := by
  intro l
  induction l with
  | nil => intro s; simp
  | cons a l ih =>
    intro s
    rw [List.foldlM_cons, List.all_cons]
    have ha := hf s a
    cases hfa : f s a with
    | none =>
      rw [hfa] at ha
      rw [← ha]
      rfl
    | some s1 =>
      rw [hfa] at ha
      rw [← ha]
      simpa using ih s1

theorem slice_isSome (q : String) :
    (slice q 1 (len q - 1)).isSome = decide (2 ≤ len q) := by
  unfold slice
  by_cases h : 2 ≤ len q
  · have h' : (0 : Int) ≤ 1 ∧ 1 ≤ len q - 1 ∧ len q - 1 ≤ len q := by omega
    simp [h, h']
  · have h' : ¬((0 : Int) ≤ 1 ∧ 1 ≤ len q - 1 ∧ len q - 1 ≤ len q) := by omega
    rw [if_neg h']
    simp [h]

theorem addImportSpec_unaliased_isSome (st : Store) (q : String) :
    (addImportSpec buildImport srcDir st (.importSpec ⟨none, q⟩)).isSome
      = decide (2 ≤ len q) := by
  rw [← slice_isSome]
  cases hq : slice q 1 (len q - 1) with
  | none => rw [addImportSpec_unsliced _ _ _ _ hq]; rfl
  | some P =>
    by_cases hc : index st.ip P = ""
    · cases hi : buildImport P srcDir with
      | none => rw [addImportSpec_failed _ _ _ _ _ hq hc hi]; rfl
      | some N => rw [addImportSpec_resolved _ _ _ _ _ _ hq hc hi]; rfl
    · rw [addImportSpec_hit _ _ _ _ _ hq hc]; rfl

theorem addImportSpec_isSome (st : Store) (spec : Spec) :
    (addImportSpec buildImport srcDir st spec).isSome = specOk spec := by
  cases spec with
  | valueSpec n => rfl
  | typeSpec n => rfl
  | importSpec s =>
    obtain ⟨name, q⟩ := s
    cases name with
    | none =>
      rw [addImportSpec_unaliased_isSome]
      simp [specOk]
    | some A =>
      by_cases hB : A = "_"
      · subst hB
        rw [addImportSpec_blank]
        simp [specOk]
      · by_cases hA : A = ""
        · subst hA
          rw [addImportSpec_emptyName, addImportSpec_unaliased_isSome]
          simp [specOk]
        · rw [addImportSpec_explicit _ _ _ _ _ hA hB, Option.isSome_map', slice_isSome]
          simp [specOk, hB]

theorem addImports_isSome (st : Store) (decl : Decl) :
    (addImports buildImport st decl srcDir).isSome = declOk decl := by
  cases decl with
  | badDecl => rfl
  | funcDecl f => rfl
  | genDecl Tok Specs =>
    cases Tok
    case IMPORT =>
      rw [addImports_importDecl]
      exact foldlM_isSome _ specOk (addImportSpec_isSome buildImport srcDir) Specs st
    all_goals rfl

/-- What one normal pass of the declaration loop leaves. -/
theorem processDecl_eq {x : Extractors} {pkgImportPath pkgPath : String} {pkg : Package}
    {st st' : ScanState} {decl : Decl}
    (h : processDecl x buildImport pkgImportPath pkgPath pkg st decl = some st') :
    ∃ store, addImports buildImport st.store decl pkgPath = some store
      ∧ st' = scanFunc x pkgImportPath
          (extractDecl x pkgImportPath pkg { st with store := store } decl) decl := by
  unfold processDecl at h
  cases ha : addImports buildImport st.store decl pkgPath with
  | none => simp [ha] at h
  | some store =>
    simp only [ha, Option.some.injEq] at h
    exact ⟨store, rfl, h.symm⟩

theorem processDecl_isSome (x : Extractors) (pkgImportPath pkgPath : String) (pkg : Package)
    (st : ScanState) (decl : Decl) :
    (processDecl x buildImport pkgImportPath pkgPath pkg st decl).isSome = declOk decl := by
  rw [← addImports_isSome buildImport pkgPath st.store decl]
  unfold processDecl
  cases addImports buildImport st.store decl pkgPath <;> rfl

theorem processFile_isSome (x : Extractors) (pkgImportPath pkgPath : String) (pkg : Package)
    (st : ScanState) (file : File) :
    (processFile x buildImport pkgImportPath pkgPath pkg st file).isSome
      = file.Decls.all declOk := by
  unfold processFile
  exact foldlM_isSome _ declOk (processDecl_isSome buildImport x pkgImportPath pkgPath pkg)
    file.Decls _

/-- The scan of `processPackage` ends normally exactly on the packages in whose
declarations of imports every spec is an import spec with a sliceable path
literal (or a blank one). -/
theorem scanPackage_isSome (x : Extractors) (ip : ImportCache)
    (pkgImportPath pkgPath : String) (pkg : Package) :
    (scanPackage x buildImport ip pkgImportPath pkgPath pkg).isSome = packageOk pkg := by
  unfold scanPackage packageOk
  exact foldlM_isSome _ (fun file => file.Decls.all declOk)
    (processFile_isSome buildImport x pkgImportPath pkgPath pkg) pkg.Files _

theorem processPackage_isSome (x : Extractors) (ip : ImportCache)
    (pkgImportPath pkgPath : String) (pkg : Package) :
    (processPackage x buildImport ip pkgImportPath pkgPath pkg).isSome = packageOk pkg := by
  unfold processPackage
  rw [Option.isSome_map', scanPackage_isSome]

end Normal

/-! ## The accumulators of the scan -/

section Accumulators

variable (buildImport : String → String → Option String)

/-- A loop whose body either sets a variable to `c` (on the elements with `p`)
or leaves it alone ends with `c` in it when some element has `p`, and with the
old value otherwise. -/
theorem foldlM_lastWrite {σ α β : Type} (f : σ → α → Option σ) (g : σ → β) (p : α → Bool)
    (c : β) (hf : ∀ s a s', f s a = some s' → g s' = if p a then c else g s) :
    ∀ (l : List α) (s s' : σ), l.foldlM f s = some s' →
      g s' = if l.any p then c else g s := by
  intro l
  induction l with
  | nil =>
    intro s s' h
    simp at h
    simp [h]
  | cons a l ih =>
    intro s s' h
    rw [List.foldlM_cons] at h
    cases hfa : f s a with
    | none => simp [hfa] at h
    | some s1 =>
      simp [hfa] at h
      rw [ih s1 s' h, hf s a s1 hfa, List.any_cons]
      cases p a <;> cases l.any p <;> simp

theorem extractDecl_initImportPaths (x : Extractors) (pkgImportPath : String) (pkg : Package)
    (st : ScanState) (decl : Decl) :
    (extractDecl x pkgImportPath pkg st decl).initImportPaths = st.initImportPaths := by
  unfold extractDecl
  split_ifs <;> rfl

theorem extractDecl_validationKeys (x : Extractors) (pkgImportPath : String) (pkg : Package)
    (st : ScanState) (decl : Decl) :
    (extractDecl x pkgImportPath pkg st decl).validationKeys = st.validationKeys := by
  unfold extractDecl
  split_ifs <;> rfl

theorem extractDecl_validationCalls (x : Extractors) (pkgImportPath : String) (pkg : Package)
    (st : ScanState) (decl : Decl) :
    (extractDecl x pkgImportPath pkg st decl).validationCalls = st.validationCalls := by
  unfold extractDecl
  split_ifs <;> rfl

theorem scanFunc_initImportPaths (x : Extractors) (pkgImportPath : String)
    (st : ScanState) (decl : Decl) :
    (scanFunc x pkgImportPath st decl).initImportPaths
      = if isInit decl then [pkgImportPath] else st.initImportPaths := by
  cases decl with
  | badDecl => rfl
  | genDecl t s => rfl
  | funcDecl f =>
    simp only [scanFunc, isInit]
    split_ifs <;> simp_all

theorem processDecl_initImportPaths {x : Extractors} {pkgImportPath pkgPath : String}
    {pkg : Package} {st st' : ScanState} {decl : Decl}
    (h : processDecl x buildImport pkgImportPath pkgPath pkg st decl = some st') :
    st'.initImportPaths = if isInit decl then [pkgImportPath] else st.initImportPaths := by
  obtain ⟨store, _, rfl⟩ := processDecl_eq buildImport h
  rw [scanFunc_initImportPaths, extractDecl_initImportPaths]

theorem processFile_initImportPaths {x : Extractors} {pkgImportPath pkgPath : String}
    {pkg : Package} {st st' : ScanState} {file : File}
    (h : processFile x buildImport pkgImportPath pkgPath pkg st file = some st') :
    st'.initImportPaths
      = if file.Decls.any isInit then [pkgImportPath] else st.initImportPaths := by
  unfold processFile at h
  have key := foldlM_lastWrite (processDecl x buildImport pkgImportPath pkgPath pkg)
    (fun s => s.initImportPaths) isInit [pkgImportPath]
    (fun s d s' hd => processDecl_initImportPaths buildImport hd) file.Decls _ st' h
  exact key

theorem scanPackage_initImportPaths {x : Extractors} {ip : ImportCache}
    {pkgImportPath pkgPath : String} {pkg : Package} {st' : ScanState}
    (h : scanPackage x buildImport ip pkgImportPath pkgPath pkg = some st') :
    st'.initImportPaths = if declaresInit pkg then [pkgImportPath] else [] := by
  unfold scanPackage at h
  have key := foldlM_lastWrite (processFile x buildImport pkgImportPath pkgPath pkg)
    (fun s => s.initImportPaths) (fun file => file.Decls.any isInit) [pkgImportPath]
    (fun s f s' hf => processFile_initImportPaths buildImport hf) pkg.Files _ st' h
  exact key

theorem declaresInit_iff (pkg : Package) :
    declaresInit pkg = true
      ↔ ∃ file ∈ pkg.Files, ∃ f : FuncDecl, Decl.funcDecl f ∈ file.Decls ∧ f.Name = "init" := by
  unfold declaresInit
  rw [List.any_eq_true]
  constructor
  · rintro ⟨file, hfile, hany⟩
    rw [List.any_eq_true] at hany
    obtain ⟨d, hd, hinit⟩ := hany
    cases d with
    | badDecl => simp [isInit] at hinit
    | genDecl t s => simp [isInit] at hinit
    | funcDecl f => exact ⟨file, hfile, f, hd, by simpa [isInit] using hinit⟩
  · rintro ⟨file, hfile, f, hd, hname⟩
    refine ⟨file, hfile, ?_⟩
    rw [List.any_eq_true]
    exact ⟨.funcDecl f, hd, by simp [isInit, hname]⟩

end Accumulators

/-! ## The validation keys -/

section Validation

variable (buildImport : String → String → Option String)

theorem scanFunc_validationCalls (x : Extractors) (pkgImportPath : String)
    (st : ScanState) (f : FuncDecl) :
    (scanFunc x pkgImportPath st (.funcDecl f)).validationCalls
      = st.validationCalls ++ [(f, st.store.imports)] := by
  simp only [scanFunc]
  split_ifs <;> rfl

theorem scanFunc_validationKeys (x : Extractors) (pkgImportPath : String)
    (st : ScanState) (f : FuncDecl) :
    (scanFunc x pkgImportPath st (.funcDecl f)).validationKeys
      = if (x.getValidationKeys f st.store.imports).keys.card > 0 then
          st.validationKeys.insert (pkgImportPath ++ "." ++ x.getFuncName f)
            (x.getValidationKeys f st.store.imports)
        else st.validationKeys := by
  simp only [scanFunc]
  split_ifs <;> rfl

theorem scanFunc_keysFromScans (x : Extractors) (pkgImportPath : String)
    (st : ScanState) (decl : Decl) (h : KeysFromScans x pkgImportPath st) :
    KeysFromScans x pkgImportPath (scanFunc x pkgImportPath st decl) := by
  cases decl with
  | badDecl => exact h
  | genDecl t s => exact h
  | funcDecl f =>
    obtain ⟨h1, h2⟩ := h
    unfold KeysFromScans
    rw [scanFunc_validationCalls, scanFunc_validationKeys]
    by_cases hlen : (x.getValidationKeys f st.store.imports).keys.card > 0
    · rw [if_pos hlen]
      constructor
      · intro k v hkv
        by_cases hk : k = pkgImportPath ++ "." ++ x.getFuncName f
        · subst hk
          rw [Finmap.lookup_insert] at hkv
          have hv : x.getValidationKeys f st.store.imports = v := Option.some.inj hkv
          subst hv
          exact ⟨(f, st.store.imports), by simp, rfl, hlen, rfl⟩
        · rw [Finmap.lookup_insert_of_ne _ hk] at hkv
          obtain ⟨c, hc, hrest⟩ := h1 k v hkv
          exact ⟨c, List.mem_append_left _ hc, hrest⟩
      · intro c hc hpos
        rw [Finmap.mem_insert]
        rcases List.mem_append.mp hc with hc | hc
        · exact Or.inr (h2 c hc hpos)
        · rw [List.mem_singleton] at hc
          subst hc
          exact Or.inl rfl
    · rw [if_neg hlen]
      constructor
      · intro k v hkv
        obtain ⟨c, hc, hrest⟩ := h1 k v hkv
        exact ⟨c, List.mem_append_left _ hc, hrest⟩
      · intro c hc hpos
        rcases List.mem_append.mp hc with hc | hc
        · exact h2 c hc hpos
        · rw [List.mem_singleton] at hc
          subst hc
          exact absurd hpos hlen

theorem processDecl_keysFromScans {x : Extractors} {pkgImportPath pkgPath : String}
    {pkg : Package} {st st' : ScanState} {decl : Decl}
    (hst : KeysFromScans x pkgImportPath st)
    (h : processDecl x buildImport pkgImportPath pkgPath pkg st decl = some st') :
    KeysFromScans x pkgImportPath st' := by
  obtain ⟨store, _, rfl⟩ := processDecl_eq buildImport h
  apply scanFunc_keysFromScans
  unfold KeysFromScans
  rw [extractDecl_validationKeys, extractDecl_validationCalls]
  exact hst

theorem processFile_keysFromScans {x : Extractors} {pkgImportPath pkgPath : String}
    {pkg : Package} {st st' : ScanState} {file : File}
    (hst : KeysFromScans x pkgImportPath st)
    (h : processFile x buildImport pkgImportPath pkgPath pkg st file = some st') :
    KeysFromScans x pkgImportPath st' := by
  unfold processFile at h
  refine foldlM_keeps (processDecl x buildImport pkgImportPath pkgPath pkg)
    (KeysFromScans x pkgImportPath)
    (fun s d s' hs hd => processDecl_keysFromScans buildImport hs hd) file.Decls _ st' ?_ h
  exact hst

theorem scanPackage_keysFromScans {x : Extractors} {ip : ImportCache}
    {pkgImportPath pkgPath : String} {pkg : Package} {st' : ScanState}
    (h : scanPackage x buildImport ip pkgImportPath pkgPath pkg = some st') :
    KeysFromScans x pkgImportPath st' := by
  unfold scanPackage at h
  refine foldlM_keeps (processFile x buildImport pkgImportPath pkgPath pkg)
    (KeysFromScans x pkgImportPath)
    (fun s f s' hs hf => processFile_keysFromScans buildImport hs hf) pkg.Files _ st' ?_ h
  constructor
  · intro k v hkv
    simp [initialScan] at hkv
  · intro c hc
    simp [initialScan] at hc

/-- A loop whose body appends `e a` to a list variable appends them all. -/
theorem foldlM_appends {σ α β : Type} (f : σ → α → Option σ) (g : σ → List β)
    (e : α → List β) (hf : ∀ s a s', f s a = some s' → g s' = g s ++ e a) :
    ∀ (l : List α) (s s' : σ), l.foldlM f s = some s' → g s' = g s ++ l.flatMap e := by
  intro l
  induction l with
  | nil =>
    intro s s' h
    simp at h
    simp [h]
  | cons a l ih =>
    intro s s' h
    rw [List.foldlM_cons] at h
    cases hfa : f s a with
    | none => simp [hfa] at h
    | some s1 =>
      simp [hfa] at h
      rw [ih s1 s' h, hf s a s1 hfa, List.flatMap_cons, List.append_assoc]

theorem processDecl_validationCalls {x : Extractors} {pkgImportPath pkgPath : String}
    {pkg : Package} {st st' : ScanState} {decl : Decl}
    (h : processDecl x buildImport pkgImportPath pkgPath pkg st decl = some st') :
    st'.validationCalls.map Prod.fst
      = st.validationCalls.map Prod.fst ++ (funcOf decl).toList := by
  obtain ⟨store, _, rfl⟩ := processDecl_eq buildImport h
  cases decl with
  | badDecl => simp [scanFunc, funcOf, extractDecl_validationCalls]
  | genDecl t s => simp [scanFunc, funcOf, extractDecl_validationCalls]
  | funcDecl f =>
    rw [scanFunc_validationCalls, extractDecl_validationCalls]
    simp [funcOf]

theorem flatMap_funcOf (decls : List Decl) :
    decls.flatMap (fun d => (funcOf d).toList) = decls.filterMap funcOf := by
  induction decls with
  | nil => rfl
  | cons d ds ih =>
    rw [List.flatMap_cons, ih]
    cases d <;> simp [funcOf]

theorem processFile_validationCalls {x : Extractors} {pkgImportPath pkgPath : String}
    {pkg : Package} {st st' : ScanState} {file : File}
    (h : processFile x buildImport pkgImportPath pkgPath pkg st file = some st') :
    st'.validationCalls.map Prod.fst
      = st.validationCalls.map Prod.fst ++ file.Decls.filterMap funcOf := by
  unfold processFile at h
  have key := foldlM_appends (processDecl x buildImport pkgImportPath pkgPath pkg)
    (fun s => s.validationCalls.map Prod.fst) (fun d => (funcOf d).toList)
    (fun s d s' hd => processDecl_validationCalls buildImport hd) file.Decls _ st' h
  rw [flatMap_funcOf] at key
  exact key

/-- The validation scan is run on the function declarations of the package,
each once, in order. -/
theorem scanPackage_validationCalls {x : Extractors} {ip : ImportCache}
    {pkgImportPath pkgPath : String} {pkg : Package} {st' : ScanState}
    (h : scanPackage x buildImport ip pkgImportPath pkgPath pkg = some st') :
    st'.validationCalls.map Prod.fst = funcDecls pkg := by
  unfold scanPackage at h
  have key := foldlM_appends (processFile x buildImport pkgImportPath pkgPath pkg)
    (fun s => s.validationCalls.map Prod.fst) (fun file => file.Decls.filterMap funcOf)
    (fun s f s' hf => processFile_validationCalls buildImport hf) pkg.Files _ st' h
  simpa [initialScan, funcDecls] using key

end Validation

/-! ## The alias cache -/

/-- C1 (cache-hit determinism). Once the cache holds the declared name `N` of
an import path `P` (a name, hence not the empty string, which the code reads as
"no alias"), every pass of `addImports` over an un-aliased import of `P`, with
any importer, from any directory, in any declaration, maps `N` to `P` in the
table of imports and does nothing else: the importer is not invoked and the
cache is as before. And every call of `addImports` leaves the cache holding `N` for
`P`, so this holds for every later call as well. -/
theorem cache_hit_determinism (st : Store) (P N : String)
    (hcache : st.ip.lookup P = some N) (hN : N ≠ "") :
    (∀ (buildImport : String → String → Option String) (srcDir q : String),
        slice q 1 (len q - 1) = some P →
        addImportSpec buildImport srcDir st (.importSpec ⟨none, q⟩)
          = some { st with imports := st.imports.insert N P })
    ∧ (∀ (buildImport : String → String → Option String) (srcDir q : String)
        (pre post : List Spec), slice q 1 (len q - 1) = some P →
        addImports buildImport st (.genDecl .IMPORT (pre ++ .importSpec ⟨none, q⟩ :: post)) srcDir
          = (addImportSpecs buildImport srcDir st pre).bind fun mid =>
              addImportSpecs buildImport srcDir
                { mid with imports := mid.imports.insert N P } post)
    ∧ (∀ (buildImport : String → String → Option String) (srcDir : String) (decl : Decl)
        (st' : Store), addImports buildImport st decl srcDir = some st' →
        st'.ip.lookup P = some N) := by
  have hit : ∀ (buildImport : String → String → Option String) (srcDir q : String)
      (s : Store), s.ip.lookup P = some N → slice q 1 (len q - 1) = some P →
      addImportSpec buildImport srcDir s (.importSpec ⟨none, q⟩)
        = some { s with imports := s.imports.insert N P } := by
    intro buildImport srcDir q s hs hq
    have hidx : index s.ip P = N := index_of_lookup hs
    rw [addImportSpec_hit buildImport srcDir s q P hq (by rw [hidx]; exact hN), hidx]
  refine ⟨fun buildImport srcDir q hq => hit buildImport srcDir q st hcache hq, ?_, ?_⟩
  · intro buildImport srcDir q pre post hq
    rw [addImports_split]
    cases hpre : addImportSpecs buildImport srcDir st pre with
    | none => rfl
    | some mid =>
      have hmid : mid.ip.lookup P = some N :=
        foldlM_keeps (addImportSpec buildImport srcDir) (fun s => s.ip.lookup P = some N)
          (fun s sp s' hs hstep => addImportSpec_keeps_alias buildImport srcDir hstep hs hN)
          pre st mid hcache hpre
      show (addImportSpec buildImport srcDir mid (.importSpec ⟨none, q⟩)).bind _ = _
      rw [hit buildImport srcDir q mid hmid hq]
      rfl
  · intro buildImport srcDir decl st' h
    exact addImports_keeps_alias buildImport srcDir h hcache hN

/-- C1, on the store left by the first resolution of `sample/app/models`: a
later import of it, with an importer that now fails, is answered `models`. -/
theorem cache_hit_determinism_witness :
    modelsStore.ip.lookup "sample/app/models" = some "models" ∧ "models" ≠ "" ∧
    addImportSpec failingImporter "other" { modelsStore with imports := ∅ } modelsSpec
      = some { modelsStore with imports := Finmap.insert "models" "sample/app/models" ∅ } :=
  ⟨by decide, by decide,
    (cache_hit_determinism { modelsStore with imports := ∅ } "sample/app/models" "models"
      (by decide) (by decide)).1 failingImporter "other" "\"sample/app/models\"" (by decide)⟩

/-! ## The import table of a file -/

/-- C2, as stated, fails: in the file `import ( foo "a/b"; foo "c/d" )` the
first import has the explicit alias `foo`, and the table that results from the
file's declarations maps `foo` to `c/d`, the path of the second import, not to
`a/b`. -/
theorem explicit_alias_overwritten :
    twoAliasFile.Decls
      = [.genDecl .IMPORT [.importSpec ⟨some "foo", "\"a/b\""⟩,
                           .importSpec ⟨some "foo", "\"c/d\""⟩]]
    ∧ (processFile sampleExtractors failingImporter "app/controllers" "src"
          ⟨"controllers", [twoAliasFile]⟩ (initialScan ∅) twoAliasFile).map
        (fun s => s.store.imports.lookup "foo") = some (some "c/d")
    ∧ (processFile sampleExtractors failingImporter "app/controllers" "src"
          ⟨"controllers", [twoAliasFile]⟩ (initialScan ∅) twoAliasFile).map
        (fun s => s.store.imports.lookup "foo") ≠ some (some "a/b") := by
  refine ⟨rfl, ?_, ?_⟩ <;> decide

/-- C2, amended (an explicit alias wins unless a later import takes it). Take
a file with an import that carries the alias `A` (an identifier: not empty, and
not `_`) and the path `P`. Let the declarations and specs before that import be
processed normally, and let `r` be the store left by the specs and declarations
after it when they are run on an empty table, so that `r.imports` holds what
they write. Then `processFile` ends normally, the table it leaves is those later
writes laid over the table with `A -> P`, and it maps `A` to `P` when none of
the later imports was given the alias `A`. The cache and the importer are
arbitrary. -/
theorem explicit_alias_wins (x : Extractors) (buildImport : String → String → Option String)
    (pkgImportPath pkgPath : String) (pkg : Package) (st : ScanState)
    (D1 D2 : List Decl) (pre post : List Spec) (A q P : String) (s1 s2 r : Store)
    (hA : A ≠ "") (hB : A ≠ "_") (hq : slice q 1 (len q - 1) = some P)
    (hD1 : addImportsDecls buildImport pkgPath { st.store with imports := ∅ } D1 = some s1)
    (hpre : addImportSpecs buildImport pkgPath s1 pre = some s2)
    (hrest : (addImportSpecs buildImport pkgPath { s2 with imports := ∅ } post).bind
        (fun s => addImportsDecls buildImport pkgPath s D2) = some r) :
    ∃ st' : ScanState,
      processFile x buildImport pkgImportPath pkgPath pkg st
          ⟨D1 ++ .genDecl .IMPORT (pre ++ .importSpec ⟨some A, q⟩ :: post) :: D2⟩ = some st'
      ∧ st'.store.imports = r.imports ∪ s2.imports.insert A P
      ∧ (r.imports.lookup A = none → st'.store.imports.lookup A = some P) := by
  -- the specs after the import, then the declarations after it, on the empty table
  obtain ⟨m, hm, hmr⟩ : ∃ m, addImportSpecs buildImport pkgPath { s2 with imports := ∅ } post
      = some m ∧ addImportsDecls buildImport pkgPath m D2 = some r := by
    cases hm : addImportSpecs buildImport pkgPath { s2 with imports := ∅ } post with
    | none => simp [hm] at hrest
    | some m => exact ⟨m, rfl, by simpa [hm] using hrest⟩
  -- the same on the table that holds `A -> P`
  have hpost : addImportSpecs buildImport pkgPath
      { s2 with imports := s2.imports.insert A P } post
        = some { m with imports := m.imports ∪ s2.imports.insert A P } := by
    have h := addImportSpecs_table buildImport pkgPath post { s2 with imports := ∅ }
      (s2.imports.insert A P)
    simp only [Finmap.empty_union] at h
    rw [h, hm]
    rfl
  have hD2 : addImportsDecls buildImport pkgPath
      { m with imports := m.imports ∪ s2.imports.insert A P } D2
        = some { r with imports := r.imports ∪ s2.imports.insert A P } := by
    rw [addImportsDecls_table buildImport pkgPath D2 m (s2.imports.insert A P), hmr]
    rfl
  have hstep : addImportSpec buildImport pkgPath s2 (.importSpec ⟨some A, q⟩)
      = some { s2 with imports := s2.imports.insert A P } := by
    rw [addImportSpec_explicit buildImport pkgPath s2 A q hA hB, hq]
    rfl
  have hdecl : addImports buildImport s1
      (.genDecl .IMPORT (pre ++ .importSpec ⟨some A, q⟩ :: post)) pkgPath
        = some { m with imports := m.imports ∪ s2.imports.insert A P } := by
    rw [addImports_reach buildImport pkgPath hpre hstep post, hpost]
  have hall : addImportsDecls buildImport pkgPath { st.store with imports := ∅ }
      (D1 ++ .genDecl .IMPORT (pre ++ .importSpec ⟨some A, q⟩ :: post) :: D2)
        = some { r with imports := r.imports ∪ s2.imports.insert A P } := by
    rw [addImportsDecls_append, hD1]
    show addImportsDecls buildImport pkgPath s1 _ = _
    rw [addImportsDecls_cons, hdecl]
    exact hD2
  have hfile := processFile_store buildImport x pkgImportPath pkgPath pkg st
    ⟨D1 ++ .genDecl .IMPORT (pre ++ .importSpec ⟨some A, q⟩ :: post) :: D2⟩
  rw [hall] at hfile
  cases hst : processFile x buildImport pkgImportPath pkgPath pkg st
      ⟨D1 ++ .genDecl .IMPORT (pre ++ .importSpec ⟨some A, q⟩ :: post) :: D2⟩ with
  | none => simp [hst] at hfile
  | some st' =>
    simp only [hst, Option.map_some', Option.some.injEq] at hfile
    refine ⟨st', rfl, ?_, ?_⟩
    · rw [hfile]
    · intro hlater
      rw [hfile]
      simp only
      rw [Finmap.lookup_union_right (Finmap.lookup_eq_none.mp hlater), Finmap.lookup_insert]

/-- C2 amended, on `import m "sample/app/models"` followed by `import "fmt"`
with a cache that holds `models` for the first path: the table maps `m` to
`sample/app/models`. -/
theorem explicit_alias_wins_witness :
    "m" ≠ "" ∧ "m" ≠ "_"
    ∧ slice "\"sample/app/models\"" 1 (len "\"sample/app/models\"" - 1) = some "sample/app/models"
    ∧ ∃ st' : ScanState,
      processFile sampleExtractors failingImporter "app/controllers" "src"
          ⟨"controllers", [aliasFile]⟩ (initialScan modelsStore.ip)
          ⟨[] ++ .genDecl .IMPORT ([] ++ .importSpec ⟨some "m", "\"sample/app/models\""⟩ :: [])
            :: [.genDecl .IMPORT [.importSpec ⟨none, "\"fmt\""⟩]]⟩ = some st'
      ∧ st'.store.imports
          = ({ (initialScan modelsStore.ip).store with
                importerCalls := [("fmt", "src")],
                trace := ["Could not find import: fmt"] } : Store).imports
            ∪ (initialScan modelsStore.ip).store.imports.insert "m" "sample/app/models"
      ∧ (({ (initialScan modelsStore.ip).store with
                importerCalls := [("fmt", "src")],
                trace := ["Could not find import: fmt"] } : Store).imports.lookup "m" = none →
          st'.store.imports.lookup "m" = some "sample/app/models") :=
  ⟨by decide, by decide, by decide,
    explicit_alias_wins sampleExtractors failingImporter "app/controllers" "src"
      ⟨"controllers", [aliasFile]⟩ (initialScan modelsStore.ip) []
      [.genDecl .IMPORT [.importSpec ⟨none, "\"fmt\""⟩]] [] [] "m" "\"sample/app/models\""
      "sample/app/models" (initialScan modelsStore.ip).store (initialScan modelsStore.ip).store
      { (initialScan modelsStore.ip).store with
          importerCalls := [("fmt", "src")],
          trace := ["Could not find import: fmt"] }
      (by decide) (by decide) (by decide) (by decide) (by decide) (by decide)⟩

/-- C3 (blank imports). A pass of `addImports` over an import with the alias
`_` leaves the whole store as it was, whatever the path literal, the cache and
the importer are: no entry is added to the table, the cache is not written, the
importer is not invoked, nothing is printed. So `addImports` on a declaration
containing the blank import does what it does on the declaration without it,
and the table (with the rest of the store) that `processFile` leaves for a file
containing the blank import is the one it leaves for the file without it. -/
theorem blank_import_skipped (buildImport : String → String → Option String)
    (srcDir : String) (st : Store) (q : String) :
    addImportSpec buildImport srcDir st (.importSpec ⟨some "_", q⟩) = some st
    ∧ (∀ pre post : List Spec,
        addImports buildImport st
            (.genDecl .IMPORT (pre ++ .importSpec ⟨some "_", q⟩ :: post)) srcDir
          = addImports buildImport st (.genDecl .IMPORT (pre ++ post)) srcDir)
    ∧ (∀ (x : Extractors) (pkgImportPath : String) (pkg : Package) (s : ScanState)
        (D1 D2 : List Decl) (pre post : List Spec),
        (processFile x buildImport pkgImportPath srcDir pkg s
            ⟨D1 ++ .genDecl .IMPORT (pre ++ .importSpec ⟨some "_", q⟩ :: post) :: D2⟩).map
            (fun s' => s'.store)
          = (processFile x buildImport pkgImportPath srcDir pkg s
              ⟨D1 ++ .genDecl .IMPORT (pre ++ post) :: D2⟩).map (fun s' => s'.store)) := by
  have hdecl : ∀ (st : Store) (pre post : List Spec),
      addImports buildImport st
          (.genDecl .IMPORT (pre ++ .importSpec ⟨some "_", q⟩ :: post)) srcDir
        = addImports buildImport st (.genDecl .IMPORT (pre ++ post)) srcDir := by
    intro st pre post
    rw [addImports_split, addImports_importDecl, addImportSpecs_append]
    cases addImportSpecs buildImport srcDir st pre with
    | none => rfl
    | some mid =>
      show (addImportSpec buildImport srcDir mid (.importSpec ⟨some "_", q⟩)).bind _ = _
      rw [addImportSpec_blank]
      rfl
  refine ⟨addImportSpec_blank buildImport srcDir st q, hdecl st, ?_⟩
  intro x pkgImportPath pkg s D1 D2 pre post
  rw [processFile_store, processFile_store, addImportsDecls_append, addImportsDecls_append]
  cases addImportsDecls buildImport srcDir { s.store with imports := ∅ } D1 with
  | none => rfl
  | some mid =>
    show addImportsDecls buildImport srcDir mid _ = addImportsDecls buildImport srcDir mid _
    rw [addImportsDecls_cons, addImportsDecls_cons, hdecl]

/-- C4 (a new alias is recorded). For an un-aliased import of a path `P` that
has no cached alias, when the importer succeeds with the declared name `N`, the
pass of `addImports` invokes the importer once, records `P -> N` in the cache
and inserts `N -> P` into the import table, and `addImports` goes on with the
remaining specs of the declaration. -/
theorem importer_success_recorded (buildImport : String → String → Option String)
    (srcDir : String) (st : Store) (q P N : String)
    (hq : slice q 1 (len q - 1) = some P) (hmiss : index st.ip P = "")
    (himp : buildImport P srcDir = some N) :
    ∃ st' : Store,
      addImportSpec buildImport srcDir st (.importSpec ⟨none, q⟩) = some st'
      ∧ (∀ (st0 : Store) (pre post : List Spec),
          addImportSpecs buildImport srcDir st0 pre = some st →
          addImports buildImport st0
              (.genDecl .IMPORT (pre ++ .importSpec ⟨none, q⟩ :: post)) srcDir
            = addImportSpecs buildImport srcDir st' post)
      ∧ st' = { st with importerCalls := st.importerCalls ++ [(P, srcDir)],
                        ip := st.ip.insert P N,
                        imports := st.imports.insert N P }
      ∧ st'.ip.lookup P = some N
      ∧ st'.imports.lookup N = some P := by
  have hstep := addImportSpec_resolved buildImport srcDir st q P N hq hmiss himp
  refine ⟨_, hstep, ?_, rfl, ?_, ?_⟩
  · intro st0 pre post hpre
    exact addImports_reach buildImport srcDir hpre hstep post
  · simp
  · simp

/-- C4 on the scenario of the specification: `import "sample/app/models"` with
an empty cache and the declared name `models`. -/
theorem importer_success_recorded_witness :
    slice "\"sample/app/models\"" 1 (len "\"sample/app/models\"" - 1) = some "sample/app/models"
    ∧ index emptyStore.ip "sample/app/models" = ""
    ∧ modelsImporter "sample/app/models" "src" = some "models"
    ∧ ∃ st' : Store,
      addImportSpec modelsImporter "src" emptyStore (.importSpec ⟨none, "\"sample/app/models\""⟩)
        = some st'
      ∧ (∀ (st0 : Store) (pre post : List Spec),
          addImportSpecs modelsImporter "src" st0 pre = some emptyStore →
          addImports modelsImporter st0
              (.genDecl .IMPORT (pre ++ .importSpec ⟨none, "\"sample/app/models\""⟩ :: post)) "src"
            = addImportSpecs modelsImporter "src" st' post)
      ∧ st' = { emptyStore with
                  importerCalls := emptyStore.importerCalls ++ [("sample/app/models", "src")],
                  ip := emptyStore.ip.insert "sample/app/models" "models",
                  imports := emptyStore.imports.insert "models" "sample/app/models" }
      ∧ st'.ip.lookup "sample/app/models" = some "models"
      ∧ st'.imports.lookup "models" = some "sample/app/models" :=
  ⟨by decide, by decide, by decide,
    importer_success_recorded modelsImporter "src" emptyStore "\"sample/app/models\""
      "sample/app/models" "models" (by decide) (by decide) (by decide)⟩

/-- C5 (unresolved imports are recoverable). For an un-aliased import of a path
`P` that has no cached alias and on which the importer fails, the pass of
`addImports` ends normally, adds nothing to the import table and leaves the
cache as it was, and `addImports` goes on with the remaining specs of the
declaration. -/
theorem unresolved_import_recoverable (buildImport : String → String → Option String)
    (srcDir : String) (st : Store) (q P : String)
    (hq : slice q 1 (len q - 1) = some P) (hmiss : index st.ip P = "")
    (hfail : buildImport P srcDir = none) :
    ∃ st' : Store,
      addImportSpec buildImport srcDir st (.importSpec ⟨none, q⟩) = some st'
      ∧ st'.imports = st.imports
      ∧ st'.ip = st.ip
      ∧ ∀ (st0 : Store) (pre post : List Spec),
          addImportSpecs buildImport srcDir st0 pre = some st →
          addImports buildImport st0
              (.genDecl .IMPORT (pre ++ .importSpec ⟨none, q⟩ :: post)) srcDir
            = addImportSpecs buildImport srcDir st' post := by
  have hstep := addImportSpec_failed buildImport srcDir st q P hq hmiss hfail
  exact ⟨_, hstep, rfl, rfl, fun st0 pre post hpre =>
    addImports_reach buildImport srcDir hpre hstep post⟩

/-- C5 on the scenario of the specification: `sample/app/routes` is not
generated yet, the import after it is still resolved. -/
theorem unresolved_import_recoverable_witness :
    slice "\"sample/app/routes\"" 1 (len "\"sample/app/routes\"" - 1) = some "sample/app/routes"
    ∧ index emptyStore.ip "sample/app/routes" = ""
    ∧ modelsImporter "sample/app/routes" "src" = none
    ∧ ∃ st' : Store,
      addImportSpec modelsImporter "src" emptyStore
          (.importSpec ⟨none, "\"sample/app/routes\""⟩) = some st'
      ∧ st'.imports = emptyStore.imports
      ∧ st'.ip = emptyStore.ip
      ∧ ∀ (st0 : Store) (pre post : List Spec),
          addImportSpecs modelsImporter "src" st0 pre = some emptyStore →
          addImports modelsImporter st0
              (.genDecl .IMPORT (pre ++ .importSpec ⟨none, "\"sample/app/routes\""⟩ :: post)) "src"
            = addImportSpecs modelsImporter "src" st' post :=
  ⟨by decide, by decide, by decide,
    unresolved_import_recoverable modelsImporter "src" emptyStore "\"sample/app/routes\""
      "sample/app/routes" (by decide) (by decide) (by decide)⟩

/-- C6 (the diagnostic). For an un-aliased import of a path `P` that has no
cached alias and on which the importer fails, the pass of `addImports` prints
nothing when `P` ends in `/app/routes`, and prints exactly the one line
`Could not find import: P` otherwise. The same holds for every pass, over any
spec from any store, in which the importer was invoked on `P`. -/
theorem import_not_found_diagnostic (buildImport : String → String → Option String)
    (srcDir : String) (st : Store) (q P : String)
    (hq : slice q 1 (len q - 1) = some P) (hmiss : index st.ip P = "")
    (hfail : buildImport P srcDir = none) :
    (∃ st' : Store,
      addImportSpec buildImport srcDir st (.importSpec ⟨none, q⟩) = some st'
      ∧ (HasSuffix P "/app/routes" = true → st'.trace = st.trace)
      ∧ (HasSuffix P "/app/routes" = false →
          st'.trace = st.trace ++ ["Could not find import: " ++ P]))
    ∧ (∀ (spec : Spec) (s s' : Store),
        addImportSpec buildImport srcDir s spec = some s' →
        s'.importerCalls = s.importerCalls ++ [(P, srcDir)] →
        (HasSuffix P "/app/routes" = true → s'.trace = s.trace)
        ∧ (HasSuffix P "/app/routes" = false →
            s'.trace = s.trace ++ ["Could not find import: " ++ P])) := by
  have hstep := addImportSpec_failed buildImport srcDir st q P hq hmiss hfail
  refine ⟨⟨_, hstep, ?_, ?_⟩, ?_⟩
  · intro hs
    simp [hs]
  · intro hs
    simp [hs]
  · intro spec s s' h hcall
    rcases addImportSpec_cases buildImport srcDir h with h1 | ⟨A, Q, _, h1⟩
      | ⟨Q, N, _, hN, h1⟩ | ⟨Q, _, _, h1⟩
    · rw [h1] at hcall
      simp at hcall
    · rw [h1] at hcall
      simp at hcall
    · rw [h1] at hcall
      simp at hcall
      rw [hcall, hfail] at hN
      cases hN
    · rw [h1] at hcall
      simp at hcall
      subst hcall
      rw [h1]
      constructor
      · intro hs
        simp [hs]
      · intro hs
        simp [hs]

/-- C6 on `sample/app/routes`, which ends in `/app/routes`: no line is printed. -/
theorem import_not_found_diagnostic_witness :
    slice "\"sample/app/routes\"" 1 (len "\"sample/app/routes\"" - 1) = some "sample/app/routes"
    ∧ index emptyStore.ip "sample/app/routes" = ""
    ∧ failingImporter "sample/app/routes" "src" = none
    ∧ ∃ st' : Store,
      addImportSpec failingImporter "src" emptyStore
          (.importSpec ⟨none, "\"sample/app/routes\""⟩) = some st'
      ∧ (HasSuffix "sample/app/routes" "/app/routes" = true → st'.trace = emptyStore.trace)
      ∧ (HasSuffix "sample/app/routes" "/app/routes" = false →
          st'.trace = emptyStore.trace ++ ["Could not find import: " ++ "sample/app/routes"]) :=
  ⟨by decide, by decide, by decide,
    (import_not_found_diagnostic failingImporter "src" emptyStore "\"sample/app/routes\""
      "sample/app/routes" (by decide) (by decide) (by decide)).1⟩

/-- C7, as stated, fails: the cache holds an entry for `sample/app/models`, the
empty string, before `addImports` is called on `import "sample/app/models"`;
the code reads the empty string as "no alias" (lines 96 to 107), invokes the
importer and overwrites the entry with the name `models` (line 118). -/
theorem empty_cache_entry_overwritten :
    emptyAliasStore.ip.lookup "sample/app/models" = some ""
    ∧ (addImports modelsImporter emptyAliasStore (.genDecl .IMPORT [modelsSpec]) "src").map
        (fun s => s.ip.lookup "sample/app/models") = some (some "models")
    ∧ (addImports modelsImporter emptyAliasStore (.genDecl .IMPORT [modelsSpec]) "src").map
        (fun s => s.ip.lookup "sample/app/models") ≠ some (some "") := by
  refine ⟨?_, ?_, ?_⟩ <;> decide

/-- C7, amended (the cache invariant). An import path that has an alias other
than the empty string in the cache before a call of `addImports` has the same
alias after it, and so after a whole scan by `processPackage`: the entry is not
overwritten and not removed. -/
theorem cache_entries_never_overwritten (ip : ImportCache) (P a : String)
    (hc : ip.lookup P = some a) (ha : a ≠ "") :
    (∀ (buildImport : String → String → Option String) (st st' : Store) (decl : Decl)
        (srcDir : String), st.ip = ip →
        addImports buildImport st decl srcDir = some st' → st'.ip.lookup P = some a)
    ∧ (∀ (x : Extractors) (buildImport : String → String → Option String)
        (pkgImportPath pkgPath : String) (pkg : Package) (s' : ScanState),
        scanPackage x buildImport ip pkgImportPath pkgPath pkg = some s' →
        s'.store.ip.lookup P = some a) := by
  refine ⟨?_, ?_⟩
  · intro buildImport st st' decl srcDir hst h
    exact addImports_keeps_alias buildImport srcDir h (hst ▸ hc) ha
  · intro x buildImport pkgImportPath pkgPath pkg s' h
    exact scanPackage_keeps_alias buildImport h hc ha

/-- C7 amended, on the cache that holds `sample/app/models -> models`, with an
importer that would now answer `other` for every path. -/
theorem cache_entries_never_overwritten_witness :
    modelsStore.ip.lookup "sample/app/models" = some "models" ∧ "models" ≠ "" ∧
    ∃ st' : Store,
      addImports (fun _ _ => some "other") modelsStore
        (.genDecl .IMPORT [modelsSpec, .importSpec ⟨none, "\"sample/app/views\""⟩]) "src" = some st'
      ∧ st'.ip.lookup "sample/app/models" = some "models" :=
  ⟨by decide, by decide,
    ⟨{ imports := Finmap.insert "other" "sample/app/views"
                    (Finmap.insert "models" "sample/app/models" ∅),
       ip := Finmap.insert "sample/app/views" "other"
                    (Finmap.insert "sample/app/models" "models" ∅),
       importerCalls := [("sample/app/models", "src"), ("sample/app/views", "src")],
       trace := [] },
     by decide,
     (cache_entries_never_overwritten modelsStore.ip "sample/app/models" "models"
        (by decide) (by decide)).1 (fun _ _ => some "other") modelsStore _
        (.genDecl .IMPORT [modelsSpec, .importSpec ⟨none, "\"sample/app/views\""⟩]) "src" rfl
        (by decide)⟩⟩

/-- C8 (an explicit alias does not touch the cache). A pass of `addImports` over
an import spec that carries an alias `A` in the source (an identifier, hence
not empty) skips the spec when `A` is `_`, and otherwise inserts `A -> path`
into the import table, panicking only on a path literal too short to be
sliced. The cache, the record of importer invocations and the trace are as
before, and the outcome is the same for every cache and every importer: neither
is consulted. -/
theorem explicit_alias_bypasses_cache (buildImport : String → String → Option String)
    (srcDir : String) (st : Store) (A q : String) (hA : A ≠ "") :
    addImportSpec buildImport srcDir st (.importSpec ⟨some A, q⟩)
      = (if A = "_" then some st
         else (slice q 1 (len q - 1)).map fun P =>
           { st with imports := st.imports.insert A P })
    ∧ (∀ st' : Store,
        addImportSpec buildImport srcDir st (.importSpec ⟨some A, q⟩) = some st' →
        st'.ip = st.ip ∧ st'.importerCalls = st.importerCalls ∧ st'.trace = st.trace)
    ∧ (∀ (ip' : ImportCache) (buildImport' : String → String → Option String),
        addImportSpec buildImport' srcDir { st with ip := ip' } (.importSpec ⟨some A, q⟩)
          = (addImportSpec buildImport srcDir st (.importSpec ⟨some A, q⟩)).map
              fun s => { s with ip := ip' }) := by
  have key : ∀ (imp : String → String → Option String) (s : Store),
      addImportSpec imp srcDir s (.importSpec ⟨some A, q⟩)
        = (if A = "_" then some s
           else (slice q 1 (len q - 1)).map fun P =>
             { s with imports := s.imports.insert A P }) := by
    intro imp s
    by_cases hB : A = "_"
    · subst hB
      simp [addImportSpec_blank]
    · rw [addImportSpec_explicit imp srcDir s A q hA hB]
      simp [hB]
  refine ⟨key buildImport st, ?_, ?_⟩
  · intro st' h
    rw [key] at h
    by_cases hB : A = "_"
    · simp only [hB, if_true, Option.some.injEq] at h
      subst h
      exact ⟨rfl, rfl, rfl⟩
    · simp only [hB, if_false] at h
      cases hs : slice q 1 (len q - 1) with
      | none => simp [hs] at h
      | some P =>
        simp only [hs, Option.map_some', Option.some.injEq] at h
        subst h
        exact ⟨rfl, rfl, rfl⟩
  · intro ip' buildImport'
    rw [key buildImport' _, key buildImport st]
    by_cases hB : A = "_"
    · simp [hB]
    · simp only [hB, if_false]
      cases slice q 1 (len q - 1) <;> rfl

/-- C8 on `import m "sample/app/models"`: the table gets `m`, the cache (which
holds `models` for that path) and the importer are left alone. -/
theorem explicit_alias_bypasses_cache_witness :
    "m" ≠ "" ∧
    addImportSpec failingImporter "src" modelsStore
        (.importSpec ⟨some "m", "\"sample/app/models\""⟩)
      = some { modelsStore with
                imports := modelsStore.imports.insert "m" "sample/app/models" } :=
  ⟨by decide,
    ((explicit_alias_bypasses_cache failingImporter "src" modelsStore "m"
        "\"sample/app/models\"" (by decide)).1).trans (by decide)⟩

/-! ## The result of the scan -/

/-- C9, as stated, fails: the package has two `init` functions, the validation
scan of the second returns an empty mapping (it is run with the empty table),
and the identifier `app/controllers.init` of that function is a key of the
returned `ValidationKeys`, put there by the scan of the first. -/
theorem empty_scan_key_present :
    funcDecls twoInitPackage = [validatingInit, emptyInit]
    ∧ (scanPackage sampleExtractors failingImporter ∅ "app/controllers" "src"
          twoInitPackage).map (fun s => s.validationCalls)
        = some [(validatingInit, ∅), (emptyInit, ∅)]
    ∧ (sampleExtractors.getValidationKeys emptyInit ∅).keys.card = 0
    ∧ (processPackage sampleExtractors failingImporter ∅ "app/controllers" "src"
          twoInitPackage).map
        (fun si => si.ValidationKeys.lookup
          ("app/controllers" ++ "." ++ sampleExtractors.getFuncName emptyInit))
        = some (some (Finmap.insert 42 "user.Name" ∅)) := by
  refine ⟨?_, ?_, ?_, ?_⟩ <;> decide

/-- C9, amended (only non-empty scans are stored). In a scan that ends
normally, the validation scan is run once on every function declaration of the
package, in order; an identifier is a key of the returned `ValidationKeys`
exactly when the scan of some function declaration with that identifier
returned a non-empty mapping; every stored entry is a non-empty mapping; and a
declaration whose scan returns an empty mapping leaves `ValidationKeys` as it
was. -/
theorem validation_keys_from_nonempty_scans (x : Extractors)
    (buildImport : String → String → Option String) (ip : ImportCache)
    (pkgImportPath pkgPath : String) (pkg : Package) (s : ScanState)
    (h : scanPackage x buildImport ip pkgImportPath pkgPath pkg = some s) :
    processPackage x buildImport ip pkgImportPath pkgPath pkg = some (sourceInfo s)
    ∧ s.validationCalls.map Prod.fst = funcDecls pkg
    ∧ (∀ k : String, k ∈ (sourceInfo s).ValidationKeys ↔
        ∃ c ∈ s.validationCalls, 0 < (x.getValidationKeys c.1 c.2).keys.card
          ∧ k = pkgImportPath ++ "." ++ x.getFuncName c.1)
    ∧ (∀ (k : String) (v : LineKeys),
        (sourceInfo s).ValidationKeys.lookup k = some v → 0 < v.keys.card)
    ∧ (∀ (st : ScanState) (f : FuncDecl),
        (x.getValidationKeys f st.store.imports).keys.card = 0 →
        (scanFunc x pkgImportPath st (.funcDecl f)).validationKeys = st.validationKeys) := by
  obtain ⟨h1, h2⟩ := scanPackage_keysFromScans buildImport h
  refine ⟨?_, scanPackage_validationCalls buildImport h, ?_, ?_, ?_⟩
  · unfold processPackage
    rw [h]
    rfl
  · intro k
    constructor
    · intro hk
      obtain ⟨v, hv⟩ := Option.isSome_iff_exists.mp (Finmap.lookup_isSome.mpr hk)
      obtain ⟨c, hc, hvc, hpos, hkc⟩ := h1 k v hv
      exact ⟨c, hc, hvc ▸ hpos, hkc⟩
    · rintro ⟨c, hc, hpos, rfl⟩
      exact h2 c hc hpos
  · intro k v hkv
    obtain ⟨c, _, _, hpos, _⟩ := h1 k v hkv
    exact hpos
  · intro st f hzero
    rw [scanFunc_validationKeys, if_neg]
    omega

/-- C9 amended, on a package whose one function has no validation call: the
scan ends normally and the returned `ValidationKeys` has no key. -/
theorem validation_keys_from_nonempty_scans_witness :
    ∃ s : ScanState,
      scanPackage sampleExtractors modelsImporter ∅ "app/controllers" "src" plainPackage = some s
      ∧ s.validationCalls.map Prod.fst = funcDecls plainPackage
      ∧ ∀ (k : String) (v : LineKeys),
          (sourceInfo s).ValidationKeys.lookup k = some v → 0 < v.keys.card := by
  cases h : scanPackage sampleExtractors modelsImporter ∅ "app/controllers" "src"
      plainPackage with
  | none =>
    have hsome := scanPackage_isSome modelsImporter sampleExtractors ∅ "app/controllers" "src"
      plainPackage
    rw [h] at hsome
    exact absurd hsome (by decide)
  | some s =>
    have key := validation_keys_from_nonempty_scans sampleExtractors modelsImporter ∅
      "app/controllers" "src" plainPackage s h
    exact ⟨s, rfl, key.2.1, key.2.2.2.1⟩

/-- C10 (the init import paths). `processPackage` returns a `SourceInfo` exactly
for the packages on which the scan does not panic, and in every `SourceInfo` it
returns, for a package of any role, `InitImportPaths` is the one-element
sequence of the package's import path when some file of the package has a
function declaration named `init` (however many there are; the code looks at
the name of the declaration only), and is empty when none has. -/
theorem init_import_paths (x : Extractors) (buildImport : String → String → Option String)
    (ip : ImportCache) (pkgImportPath pkgPath : String) (pkg : Package) :
    (processPackage x buildImport ip pkgImportPath pkgPath pkg).isSome = packageOk pkg
    ∧ ∀ si : SourceInfo,
        processPackage x buildImport ip pkgImportPath pkgPath pkg = some si →
        ((∃ file ∈ pkg.Files, ∃ f : FuncDecl,
              Decl.funcDecl f ∈ file.Decls ∧ f.Name = "init") →
            si.InitImportPaths = [pkgImportPath])
        ∧ ((¬ ∃ file ∈ pkg.Files, ∃ f : FuncDecl,
              Decl.funcDecl f ∈ file.Decls ∧ f.Name = "init") →
            si.InitImportPaths = []) := by
  refine ⟨processPackage_isSome buildImport x ip pkgImportPath pkgPath pkg, ?_⟩
  intro si h
  unfold processPackage at h
  cases hs : scanPackage x buildImport ip pkgImportPath pkgPath pkg with
  | none => simp [hs] at h
  | some s =>
    simp only [hs, Option.map_some', Option.some.injEq] at h
    have hinit := scanPackage_initImportPaths buildImport hs
    subst h
    rw [← declaresInit_iff]
    constructor
    · intro hd
      show s.initImportPaths = _
      rw [hinit, if_pos hd]
    · intro hd
      show s.initImportPaths = _
      rw [hinit, if_neg hd]

/-- C10 on a package with two `init` functions: the import path is there once. -/
theorem init_import_paths_witness :
    (processPackage sampleExtractors failingImporter ∅ "app/controllers" "src"
        twoInitPackage).map (fun si => si.InitImportPaths) = some ["app/controllers"] := by
  cases h : processPackage sampleExtractors failingImporter ∅ "app/controllers" "src"
      twoInitPackage with
  | none => exact absurd h (by decide)
  | some si =>
    have hinit := ((init_import_paths sampleExtractors failingImporter ∅ "app/controllers"
      "src" twoInitPackage).2 si h).1
      ⟨_, List.mem_singleton.mpr rfl, validatingInit, by decide, rfl⟩
    simp [hinit]

/-! ## The roles of a package and the calls of the extractors -/

section Roles

variable (buildImport : String → String → Option String)

theorem extractDecl_structCalls (x : Extractors) (pkgImportPath : String) (pkg : Package)
    (st : ScanState) (decl : Decl) :
    (extractDecl x pkgImportPath pkg st decl).structCalls
      = st.structCalls ++
          (if scanControllers pkgImportPath || scanTests pkgImportPath
            then [(decl, st.store.imports)] else []) := by
  unfold extractDecl
  by_cases hc : scanControllers pkgImportPath = true
  · simp [hc]
  · by_cases ht : scanTests pkgImportPath = true
    · simp [hc, ht]
    · simp [hc, ht]

theorem extractDecl_actionCalls (x : Extractors) (pkgImportPath : String) (pkg : Package)
    (st : ScanState) (decl : Decl) :
    (extractDecl x pkgImportPath pkg st decl).actionCalls
      = st.actionCalls ++
          (if scanControllers pkgImportPath then [(decl, st.store.imports)] else []) := by
  unfold extractDecl
  by_cases hc : scanControllers pkgImportPath = true
  · simp [hc]
  · by_cases ht : scanTests pkgImportPath = true
    · simp [hc, ht]
    · simp [hc, ht]

theorem extractDecl_methodSpecs (x : Extractors) (pkgImportPath : String) (pkg : Package)
    (st : ScanState) (decl : Decl) :
    (extractDecl x pkgImportPath pkg st decl).methodSpecs
      = if scanControllers pkgImportPath
          then x.appendAction st.methodSpecs decl pkgImportPath pkg.Name st.store.imports
          else st.methodSpecs := by
  unfold extractDecl
  by_cases hc : scanControllers pkgImportPath = true
  · simp [hc]
  · by_cases ht : scanTests pkgImportPath = true
    · simp [hc, ht]
    · simp [hc, ht]

theorem scanFunc_structCalls (x : Extractors) (pkgImportPath : String)
    (st : ScanState) (decl : Decl) :
    (scanFunc x pkgImportPath st decl).structCalls = st.structCalls := by
  cases decl with
  | badDecl => rfl
  | genDecl t s => rfl
  | funcDecl f =>
    simp only [scanFunc]
    split_ifs <;> rfl

theorem scanFunc_actionCalls (x : Extractors) (pkgImportPath : String)
    (st : ScanState) (decl : Decl) :
    (scanFunc x pkgImportPath st decl).actionCalls = st.actionCalls := by
  cases decl with
  | badDecl => rfl
  | genDecl t s => rfl
  | funcDecl f =>
    simp only [scanFunc]
    split_ifs <;> rfl

theorem scanFunc_methodSpecs (x : Extractors) (pkgImportPath : String)
    (st : ScanState) (decl : Decl) :
    (scanFunc x pkgImportPath st decl).methodSpecs = st.methodSpecs := by
  cases decl with
  | badDecl => rfl
  | genDecl t s => rfl
  | funcDecl f =>
    simp only [scanFunc]
    split_ifs <;> rfl

theorem scanFunc_structSpecs (x : Extractors) (pkgImportPath : String)
    (st : ScanState) (decl : Decl) :
    (scanFunc x pkgImportPath st decl).structSpecs = st.structSpecs := by
  cases decl with
  | badDecl => rfl
  | genDecl t s => rfl
  | funcDecl f =>
    simp only [scanFunc]
    split_ifs <;> rfl

theorem processDecl_structCalls {x : Extractors} {pkgImportPath pkgPath : String}
    {pkg : Package} {st st' : ScanState} {decl : Decl}
    (h : processDecl x buildImport pkgImportPath pkgPath pkg st decl = some st') :
    st'.structCalls.map Prod.fst
      = st.structCalls.map Prod.fst ++
          (if scanControllers pkgImportPath || scanTests pkgImportPath then [decl] else []) := by
  obtain ⟨store, _, rfl⟩ := processDecl_eq buildImport h
  rw [scanFunc_structCalls, extractDecl_structCalls]
  split_ifs <;> simp

theorem processDecl_actionCalls {x : Extractors} {pkgImportPath pkgPath : String}
    {pkg : Package} {st st' : ScanState} {decl : Decl}
    (h : processDecl x buildImport pkgImportPath pkgPath pkg st decl = some st') :
    st'.actionCalls.map Prod.fst
      = st.actionCalls.map Prod.fst ++
          (if scanControllers pkgImportPath then [decl] else []) := by
  obtain ⟨store, _, rfl⟩ := processDecl_eq buildImport h
  rw [scanFunc_actionCalls, extractDecl_actionCalls]
  split_ifs <;> simp

theorem flatMap_if_singleton {α : Type} (b : Bool) (l : List α) :
    l.flatMap (fun a => if b then [a] else []) = if b then l else [] := by
  cases b
  · simp
  · induction l with
    | nil => rfl
    | cons a l ih =>
      rw [List.flatMap_cons, ih]
      simp

theorem flatMap_if {α β : Type} (b : Bool) (l : List α) (f : α → List β) :
    l.flatMap (fun a => if b then f a else []) = if b then l.flatMap f else [] := by
  cases b <;> simp

theorem processFile_structCalls {x : Extractors} {pkgImportPath pkgPath : String}
    {pkg : Package} {st st' : ScanState} {file : File}
    (h : processFile x buildImport pkgImportPath pkgPath pkg st file = some st') :
    st'.structCalls.map Prod.fst
      = st.structCalls.map Prod.fst ++
          (if scanControllers pkgImportPath || scanTests pkgImportPath
            then file.Decls else []) := by
  unfold processFile at h
  have key := foldlM_appends (processDecl x buildImport pkgImportPath pkgPath pkg)
    (fun s => s.structCalls.map Prod.fst)
    (fun d => if scanControllers pkgImportPath || scanTests pkgImportPath then [d] else [])
    (fun s d s' hd => processDecl_structCalls buildImport hd) file.Decls _ st' h
  rw [flatMap_if_singleton] at key
  exact key

theorem processFile_actionCalls {x : Extractors} {pkgImportPath pkgPath : String}
    {pkg : Package} {st st' : ScanState} {file : File}
    (h : processFile x buildImport pkgImportPath pkgPath pkg st file = some st') :
    st'.actionCalls.map Prod.fst
      = st.actionCalls.map Prod.fst ++
          (if scanControllers pkgImportPath then file.Decls else []) := by
  unfold processFile at h
  have key := foldlM_appends (processDecl x buildImport pkgImportPath pkgPath pkg)
    (fun s => s.actionCalls.map Prod.fst)
    (fun d => if scanControllers pkgImportPath then [d] else [])
    (fun s d s' hd => processDecl_actionCalls buildImport hd) file.Decls _ st' h
  rw [flatMap_if_singleton] at key
  exact key

/-- Struct extraction is called on every declaration of a package in
controller or test role, in order, and on none of a package in plain role. -/
theorem scanPackage_structCalls {x : Extractors} {ip : ImportCache}
    {pkgImportPath pkgPath : String} {pkg : Package} {st' : ScanState}
    (h : scanPackage x buildImport ip pkgImportPath pkgPath pkg = some st') :
    st'.structCalls.map Prod.fst
      = if scanControllers pkgImportPath || scanTests pkgImportPath
          then allDecls pkg else [] := by
  unfold scanPackage at h
  have key := foldlM_appends (processFile x buildImport pkgImportPath pkgPath pkg)
    (fun s => s.structCalls.map Prod.fst)
    (fun file => if scanControllers pkgImportPath || scanTests pkgImportPath
      then file.Decls else [])
    (fun s f s' hf => processFile_structCalls buildImport hf) pkg.Files _ st' h
  rw [flatMap_if] at key
  simpa [initialScan, allDecls] using key

/-- Action extraction is called on every declaration of a package in controller
role, in order, and on none of any other package. -/
theorem scanPackage_actionCalls {x : Extractors} {ip : ImportCache}
    {pkgImportPath pkgPath : String} {pkg : Package} {st' : ScanState}
    (h : scanPackage x buildImport ip pkgImportPath pkgPath pkg = some st') :
    st'.actionCalls.map Prod.fst
      = if scanControllers pkgImportPath then allDecls pkg else [] := by
  unfold scanPackage at h
  have key := foldlM_appends (processFile x buildImport pkgImportPath pkgPath pkg)
    (fun s => s.actionCalls.map Prod.fst)
    (fun file => if scanControllers pkgImportPath then file.Decls else [])
    (fun s f s' hf => processFile_actionCalls buildImport hf) pkg.Files _ st' h
  rw [flatMap_if] at key
  simpa [initialScan, allDecls] using key

theorem processDecl_methodSpecs_of_not_controllers {x : Extractors}
    {pkgImportPath pkgPath : String} {pkg : Package} {st st' : ScanState} {decl : Decl}
    (hrole : scanControllers pkgImportPath = false)
    (h : processDecl x buildImport pkgImportPath pkgPath pkg st decl = some st') :
    st'.methodSpecs = st.methodSpecs := by
  obtain ⟨store, _, rfl⟩ := processDecl_eq buildImport h
  rw [scanFunc_methodSpecs, extractDecl_methodSpecs, hrole]
  rfl

/-- Outside the controller role the method map stays empty. -/
theorem scanPackage_methodSpecs_of_not_controllers {x : Extractors} {ip : ImportCache}
    {pkgImportPath pkgPath : String} {pkg : Package} {st' : ScanState}
    (hrole : scanControllers pkgImportPath = false)
    (h : scanPackage x buildImport ip pkgImportPath pkgPath pkg = some st') :
    st'.methodSpecs = ∅ := by
  unfold scanPackage at h
  refine foldlM_keeps (processFile x buildImport pkgImportPath pkgPath pkg)
    (fun s => s.methodSpecs = ∅) ?_ pkg.Files _ st' ?_ h
  · intro s file s' hs hfile
    unfold processFile at hfile
    refine foldlM_keeps (processDecl x buildImport pkgImportPath pkgPath pkg)
      (fun s => s.methodSpecs = ∅) ?_ file.Decls _ s' ?_ hfile
    · intro t d t' ht hd
      show t'.methodSpecs = ∅
      rw [processDecl_methodSpecs_of_not_controllers buildImport hrole hd]
      exact ht
    · exact hs
  · rfl

end Roles

/-! ## The segments of an import path -/

theorem splitOn_slash_cons (c : Char) (l : List Char) :
    (c :: l).splitOn '/'
      = if c = '/' then [] :: l.splitOn '/' else (l.splitOn '/').modifyHead (List.cons c) := by
  unfold List.splitOn
  rw [List.splitOnP_cons]
  by_cases h : c = '/'
  · simp [h]
  · simp [h]

/-- The first segment of a list is `w` exactly when the list is `w`, or starts
with `w` followed by a slash. -/
theorem head_splitOn_slash (l : List Char) :
    ∀ w : List Char, '/' ∉ w →
      ((l.splitOn '/').head? = some w ↔ l = w ∨ (w ++ ['/']) <+: l) := by
  induction l with
  | nil =>
    intro w _
    have hnil : ([] : List Char).splitOn '/' = [[]] := by simp
    rw [hnil]
    constructor
    · intro h
      left
      simpa using h
    · rintro (h | h)
      · simp [← h]
      · rw [List.prefix_nil] at h
        simp at h
  | cons c l ih =>
    intro w hw
    rw [splitOn_slash_cons]
    by_cases hc : c = '/'
    · subst hc
      rw [if_pos rfl]
      constructor
      · intro h
        have hwnil : w = [] := by simpa using h.symm
        subst hwnil
        right
        simp
      · rintro (h | h)
        · exact absurd (h ▸ List.mem_cons_self _ _) hw
        · cases w with
          | nil => rfl
          | cons d w' =>
            rw [List.cons_append, List.cons_prefix_cons] at h
            exact absurd (h.1 ▸ List.mem_cons_self _ _) hw
    · rw [if_neg hc, List.head?_modifyHead]
      cases w with
      | nil =>
        constructor
        · intro h
          cases hh : (l.splitOn '/').head? with
          | none => rw [hh] at h; simp at h
          | some x => rw [hh] at h; simp at h
        · rintro (h | h)
          · cases h
          · rw [List.nil_append, List.cons_prefix_cons] at h
            exact absurd h.1.symm hc
      | cons d w' =>
        have hw' : '/' ∉ w' := fun hm => hw (List.mem_cons_of_mem _ hm)
        have ih' := ih w' hw'
        constructor
        · intro h
          cases hh : (l.splitOn '/').head? with
          | none => rw [hh] at h; simp at h
          | some x =>
            rw [hh] at h
            simp only [Option.map_some', Option.some.injEq, List.cons.injEq] at h
            obtain ⟨hcd, hx⟩ := h
            subst hcd hx
            rcases ih'.mp hh with h1 | h2
            · left; rw [h1]
            · right
              rw [List.cons_append, List.cons_prefix_cons]
              exact ⟨rfl, h2⟩
        · rintro (h | h)
          · simp only [List.cons.injEq] at h
            obtain ⟨hcd, hl⟩ := h
            subst hcd
            rw [ih'.mpr (Or.inl hl)]
            rfl
          · rw [List.cons_append, List.cons_prefix_cons] at h
            obtain ⟨hcd, hpre⟩ := h
            subst hcd
            rw [ih'.mpr (Or.inr hpre)]
            rfl

/-- A segment after the first is `w` exactly when the list ends with a slash
followed by `w`, or contains `w` between two slashes. -/
theorem tail_splitOn_slash (w : List Char) (hw : '/' ∉ w) (l : List Char) :
    w ∈ (l.splitOn '/').tail ↔ ('/' :: w) <:+ l ∨ ('/' :: w ++ ['/']) <:+: l := by
  induction l with
  | nil =>
    have hnil : ([] : List Char).splitOn '/' = [[]] := by simp
    rw [hnil]
    simp
  | cons c l ih =>
    rw [splitOn_slash_cons]
    by_cases hc : c = '/'
    · subst hc
      rw [if_pos rfl, List.tail_cons, List.suffix_cons_iff, List.infix_cons_iff,
        List.cons_append, List.cons_prefix_cons]
      have hhead := head_splitOn_slash l w hw
      constructor
      · intro hmem
        cases hs : l.splitOn '/' with
        | nil => exact absurd hs (List.splitOnP_ne_nil _ _)
        | cons h t =>
          rw [hs] at hmem ih hhead
          rcases List.mem_cons.mp hmem with hwh | hwt
          · have : (h :: t).head? = some w := by simp [hwh]
            rcases hhead.mp this with h1 | h2
            · left; left; rw [h1]
            · right; left; exact ⟨rfl, h2⟩
          · rcases ih.mp hwt with h1 | h2
            · left; right; exact h1
            · right; right; exact h2
      · intro hr
        cases hs : l.splitOn '/' with
        | nil => exact absurd hs (List.splitOnP_ne_nil _ _)
        | cons h t =>
          rw [hs] at ih hhead
          rcases hr with (h1 | h1) | (h2 | h2)
          · have hl : l = w := by simpa using h1.symm
            have := hhead.mpr (Or.inl hl)
            simp only [List.head?_cons, Option.some.injEq] at this
            rw [this]
            exact List.mem_cons_self _ _
          · exact List.mem_cons_of_mem _ (ih.mpr (Or.inl h1))
          · have := hhead.mpr (Or.inr h2.2)
            simp only [List.head?_cons, Option.some.injEq] at this
            rw [this]
            exact List.mem_cons_self _ _
          · exact List.mem_cons_of_mem _ (ih.mpr (Or.inr h2))
    · rw [if_neg hc, List.tail_modifyHead, ih, List.suffix_cons_iff, List.infix_cons_iff,
        List.cons_append, List.cons_prefix_cons]
      constructor
      · rintro (h | h)
        · left; right; exact h
        · right; right; exact h
      · rintro ((h | h) | (h | h))
        · simp only [List.cons.injEq] at h
          exact absurd h.1.symm hc
        · left; exact h
        · exact absurd h.1.symm hc
        · right; exact h

/-- The code's test on an import path, `HasSuffix p "/w" || Contains p "/w/"`,
holds exactly when `w` is a segment of the path other than the first. -/
theorem suffix_or_contains_iff_segment (p w : String) (hw : '/' ∉ w.data) :
    (HasSuffix p ⟨'/' :: w.data⟩ || Contains p ⟨'/' :: w.data ++ ['/']⟩) = true
      ↔ w ∈ (pathSegments p).tail := by
  unfold HasSuffix Contains pathSegments
  rw [Bool.or_eq_true, List.isSuffixOf_iff_suffix, decide_eq_true_iff, ← List.map_tail,
    List.mem_map, ← tail_splitOn_slash w.data hw p.data]
  constructor
  · intro h
    exact ⟨w.data, h, rfl⟩
  · rintro ⟨l, hl, hlw⟩
    have : l = w.data := by rw [← hlw]
    rw [← this]
    exact hl

theorem scanControllers_iff_segment (p : String) :
    scanControllers p = true ↔ "controllers" ∈ (pathSegments p).tail :=
  suffix_or_contains_iff_segment p "controllers" (by decide)

theorem scanTests_iff_segment (p : String) :
    scanTests p = true ↔ "tests" ∈ (pathSegments p).tail :=
  suffix_or_contains_iff_segment p "tests" (by decide)

/-! ## The method records attached to the structs -/

section Methods

variable (buildImport : String → String → Option String)

theorem index_insertMethod (m : methodMap) (ms : MethodSpec) (name : String) :
    (insertMethod m ms).index name
      = if ms.StructName = name then m.index name ++ [ms] else m.index name := by
  unfold insertMethod methodMap.index
  by_cases h : ms.StructName = name
  · subst h
    rw [Finmap.lookup_insert, if_pos rfl]
    rfl
  · rw [Finmap.lookup_insert_of_ne _ (fun hn => h hn.symm), if_neg h]

theorem processDecl_groupedSoFar {x : Extractors}
    {action : Decl → String → String → StringMap → Option MethodSpec}
    {pkgImportPath pkgPath : String} {pkg : Package} {st st' : ScanState} {decl : Decl}
    (hg : GroupsByReceiver x action)
    (hst : GroupedSoFar action pkgImportPath pkg.Name st)
    (h : processDecl x buildImport pkgImportPath pkgPath pkg st decl = some st') :
    GroupedSoFar action pkgImportPath pkg.Name st' := by
  obtain ⟨store, _, rfl⟩ := processDecl_eq buildImport h
  intro name
  rw [scanFunc_methodSpecs, scanFunc_actionCalls, extractDecl_methodSpecs,
    extractDecl_actionCalls]
  by_cases hc : scanControllers pkgImportPath = true
  · rw [if_pos hc, if_pos hc, hg]
    unfold collected
    rw [List.filterMap_append, List.filter_append]
    have hold := hst name
    unfold collected at hold
    cases hact : action decl pkgImportPath pkg.Name store.imports with
    | none =>
      simp only [List.filterMap_cons, List.filterMap_nil, hact, List.filter_nil,
        List.append_nil]
      exact hold
    | some ms =>
      simp only [List.filterMap_cons, List.filterMap_nil, hact]
      rw [index_insertMethod]
      by_cases hn : ms.StructName = name
      · rw [if_pos hn]
        show st.methodSpecs.index name ++ [ms] = _
        rw [hold]
        simp [hn]
      · rw [if_neg hn]
        show st.methodSpecs.index name = _
        rw [hold]
        simp [hn]
  · rw [if_neg hc, if_neg hc, List.append_nil]
    exact hst name

theorem scanPackage_groupedSoFar {x : Extractors}
    {action : Decl → String → String → StringMap → Option MethodSpec}
    {ip : ImportCache} {pkgImportPath pkgPath : String} {pkg : Package} {st' : ScanState}
    (hg : GroupsByReceiver x action)
    (h : scanPackage x buildImport ip pkgImportPath pkgPath pkg = some st') :
    GroupedSoFar action pkgImportPath pkg.Name st' := by
  unfold scanPackage at h
  refine foldlM_keeps (processFile x buildImport pkgImportPath pkgPath pkg)
    (GroupedSoFar action pkgImportPath pkg.Name) ?_ pkg.Files _ st' ?_ h
  · intro s file s' hs hfile
    unfold processFile at hfile
    refine foldlM_keeps (processDecl x buildImport pkgImportPath pkgPath pkg)
      (GroupedSoFar action pkgImportPath pkg.Name)
      (fun t d t' ht hd => processDecl_groupedSoFar buildImport hg ht hd)
      file.Decls _ s' ?_ hfile
    exact hs
  · intro name
    simp [initialScan, collected, methodMap.index]

end Methods

/-- C11 (methods are attached by struct name). After a scan that ends normally,
the returned structs are the collected ones, each with the entry of its struct
name in the method map as its `MethodSpecs` (lines 63 to 65). With a method map
grouped by receiver struct name, as the specification describes `appendAction`,
that entry is exactly the sequence of the collected method records whose
receiver struct name is the struct's name, in the order of collection (the
action extraction is called on the declarations in their order), and it is
empty when no collected record has that receiver. -/
theorem methods_attached_by_struct_name (x : Extractors)
    (action : Decl → String → String → StringMap → Option MethodSpec)
    (buildImport : String → String → Option String) (ip : ImportCache)
    (pkgImportPath pkgPath : String) (pkg : Package) (s : ScanState)
    (hg : GroupsByReceiver x action)
    (h : scanPackage x buildImport ip pkgImportPath pkgPath pkg = some s) :
    processPackage x buildImport ip pkgImportPath pkgPath pkg = some (sourceInfo s)
    ∧ (sourceInfo s).StructSpecs
        = s.structSpecs.map (fun spec =>
            { spec with MethodSpecs := s.methodSpecs.index spec.StructName })
    ∧ s.actionCalls.map Prod.fst = (if scanControllers pkgImportPath then allDecls pkg else [])
    ∧ ∀ ti ∈ (sourceInfo s).StructSpecs,
        ti.MethodSpecs = s.methodSpecs.index ti.StructName
        ∧ ti.MethodSpecs
            = (collected action pkgImportPath pkg.Name s.actionCalls).filter
                (fun ms => ms.StructName = ti.StructName)
        ∧ ((∀ ms ∈ collected action pkgImportPath pkg.Name s.actionCalls,
              ms.StructName ≠ ti.StructName) → ti.MethodSpecs = []) := by
  have hgrouped := scanPackage_groupedSoFar buildImport hg h
  refine ⟨?_, rfl, scanPackage_actionCalls buildImport h, ?_⟩
  · unfold processPackage
    rw [h]
    rfl
  · intro ti hti
    simp only [sourceInfo, List.mem_map] at hti
    obtain ⟨spec, _, rfl⟩ := hti
    refine ⟨rfl, hgrouped spec.StructName, ?_⟩
    intro hnone
    show s.methodSpecs.index spec.StructName = []
    rw [hgrouped spec.StructName, List.filter_eq_nil_iff]
    intro ms hms
    simpa using hnone ms hms

/-- C11 on the scenario of the specification: the struct `Users` with the
method `List` in `app/controllers` yields the `TypeInfo` of `Users` with the one
`MethodSpec` of `List` attached. -/
theorem methods_attached_by_struct_name_witness :
    GroupsByReceiver usersExtractors methodAction
    ∧ (processPackage usersExtractors modelsImporter ∅ "app/controllers" "src"
          usersPackage).map
        (fun si => si.StructSpecs.map fun ti => (ti.StructName, ti.MethodSpecs.map fun ms => ms.Name))
        = some [("Users", ["List"])]
    ∧ ∃ s : ScanState,
        scanPackage usersExtractors modelsImporter ∅ "app/controllers" "src" usersPackage
          = some s
        ∧ ∀ ti ∈ (sourceInfo s).StructSpecs,
            ti.MethodSpecs
              = (collected methodAction "app/controllers" usersPackage.Name s.actionCalls).filter
                  (fun ms => ms.StructName = ti.StructName) := by
  have hg : GroupsByReceiver usersExtractors methodAction := fun _ _ _ _ _ => rfl
  refine ⟨hg, by decide, ?_⟩
  cases h : scanPackage usersExtractors modelsImporter ∅ "app/controllers" "src"
      usersPackage with
  | none =>
    have hsome := scanPackage_isSome modelsImporter usersExtractors ∅ "app/controllers" "src"
      usersPackage
    rw [h] at hsome
    exact absurd hsome (by decide)
  | some s =>
    have key := methods_attached_by_struct_name usersExtractors methodAction modelsImporter ∅
      "app/controllers" "src" usersPackage s hg h
    exact ⟨s, rfl, fun ti hti => (key.2.2.2 ti hti).2.1⟩

/-- C12, as stated, fails: `app/models` is neither in controller role nor in
test role, the package has three declarations, one of them the struct `Users`,
and the scan calls the struct extraction on none of them; no struct is
returned. -/
theorem no_struct_extraction_in_plain_role :
    scanControllers "app/models" = false
    ∧ scanTests "app/models" = false
    ∧ allDecls usersPackage
        = [.genDecl .IMPORT [modelsSpec], .genDecl .TYPE [.typeSpec "Users"],
            .funcDecl listMethod]
    ∧ (scanPackage usersExtractors modelsImporter ∅ "app/models" "src" usersPackage).map
        (fun s => s.structCalls) = some []
    ∧ (processPackage usersExtractors modelsImporter ∅ "app/models" "src" usersPackage).map
        (fun si => si.StructSpecs) = some [] := by
  refine ⟨?_, ?_, ?_, ?_, ?_⟩ <;> decide

/-- C12, amended (struct extraction by role). In a scan that ends normally,
the struct extraction is called once on every declaration of every file of the
package, in order, when the package is in controller role or in test role, and
is not called at all when the package is in neither (plain role). -/
theorem struct_extraction_by_role (x : Extractors)
    (buildImport : String → String → Option String) (ip : ImportCache)
    (pkgImportPath pkgPath : String) (pkg : Package) (s : ScanState)
    (h : scanPackage x buildImport ip pkgImportPath pkgPath pkg = some s) :
    ((scanControllers pkgImportPath = true ∨ scanTests pkgImportPath = true) →
        s.structCalls.map Prod.fst = allDecls pkg)
    ∧ (scanControllers pkgImportPath = false → scanTests pkgImportPath = false →
        s.structCalls = []) := by
  have key := scanPackage_structCalls buildImport h
  constructor
  · intro hrole
    rw [key, if_pos]
    rcases hrole with hc | ht
    · simp [hc]
    · simp [ht]
  · intro hc ht
    rw [hc, ht] at key
    simpa using key

/-- C12 amended, on the package of the scenario in `app/controllers`. -/
theorem struct_extraction_by_role_witness :
    ∃ s : ScanState,
      scanPackage usersExtractors modelsImporter ∅ "app/controllers" "src" usersPackage
        = some s
      ∧ s.structCalls.map Prod.fst = allDecls usersPackage := by
  cases h : scanPackage usersExtractors modelsImporter ∅ "app/controllers" "src"
      usersPackage with
  | none =>
    have hsome := scanPackage_isSome modelsImporter usersExtractors ∅ "app/controllers" "src"
      usersPackage
    rw [h] at hsome
    exact absurd hsome (by decide)
  | some s =>
    exact ⟨s, rfl, (struct_extraction_by_role usersExtractors modelsImporter ∅
      "app/controllers" "src" usersPackage s h).1 (Or.inl (by decide))⟩

/-- C13, as stated, fails: the import path `controllers/admin` contains
`controllers` as a path segment (its first), it is not treated as controller
role, and no action extraction is run on the declarations of the package: the
method `List` of `Users` is not collected. -/
theorem leading_controllers_segment_is_not_controller_role :
    "controllers" ∈ pathSegments "controllers/admin"
    ∧ scanControllers "controllers/admin" = false
    ∧ (scanPackage usersExtractors modelsImporter ∅ "controllers/admin" "src"
          usersPackage).map (fun s => s.actionCalls) = some []
    ∧ Decl.funcDecl listMethod ∈ allDecls usersPackage := by
  refine ⟨?_, ?_, ?_, ?_⟩ <;> decide

/-- C13, amended (controller role). A package is treated as controller role
exactly when its import path ends with `/controllers` or contains
`/controllers/`, that is, when `controllers` is a segment of the path other
than the first. In a scan that ends normally the action extraction is called
once on every declaration of every file, in order, for such a package, and is
not called at all for any other import path. -/
theorem action_extraction_by_role (x : Extractors)
    (buildImport : String → String → Option String) (ip : ImportCache)
    (pkgImportPath pkgPath : String) (pkg : Package) (s : ScanState)
    (h : scanPackage x buildImport ip pkgImportPath pkgPath pkg = some s) :
    (scanControllers pkgImportPath = true ↔
        HasSuffix pkgImportPath "/controllers" = true
          ∨ Contains pkgImportPath "/controllers/" = true)
    ∧ (scanControllers pkgImportPath = true ↔
        "controllers" ∈ (pathSegments pkgImportPath).tail)
    ∧ (scanControllers pkgImportPath = true → s.actionCalls.map Prod.fst = allDecls pkg)
    ∧ (scanControllers pkgImportPath = false → s.actionCalls = []) := by
  have key := scanPackage_actionCalls buildImport h
  refine ⟨?_, scanControllers_iff_segment pkgImportPath, ?_, ?_⟩
  · unfold scanControllers
    rw [Bool.or_eq_true]
  · intro hc
    rw [key, if_pos hc]
  · intro hc
    rw [hc] at key
    simpa using key

/-- C13 amended, on the package of the scenario in `app/controllers`. -/
theorem action_extraction_by_role_witness :
    ∃ s : ScanState,
      scanPackage usersExtractors modelsImporter ∅ "app/controllers" "src" usersPackage
        = some s
      ∧ s.actionCalls.map Prod.fst = allDecls usersPackage := by
  cases h : scanPackage usersExtractors modelsImporter ∅ "app/controllers" "src"
      usersPackage with
  | none =>
    have hsome := scanPackage_isSome modelsImporter usersExtractors ∅ "app/controllers" "src"
      usersPackage
    rw [h] at hsome
    exact absurd hsome (by decide)
  | some s =>
    exact ⟨s, rfl, (action_extraction_by_role usersExtractors modelsImporter ∅
      "app/controllers" "src" usersPackage s h).2.2.1 (by decide)⟩

/-- C14, as stated, fails: the import path `app/tests/controllers` contains
`/tests/`, so the package is in test role, but it also ends with
`/controllers`, and the controller branch is taken first: the action extraction
is run on every declaration and the returned `TypeInfo` of `Users` has the
method `List` attached. -/
theorem test_role_under_controllers_runs_actions :
    scanTests "app/tests/controllers" = true
    ∧ Contains "app/tests/controllers" "/tests/" = true
    ∧ (scanPackage usersExtractors modelsImporter ∅ "app/tests/controllers" "src"
          usersPackage).map (fun s => s.actionCalls.map Prod.fst)
        = some (allDecls usersPackage)
    ∧ (processPackage usersExtractors modelsImporter ∅ "app/tests/controllers" "src"
          usersPackage).map
        (fun si => si.StructSpecs.map fun ti => (ti.StructName, ti.MethodSpecs.map fun ms => ms.Name))
        = some [("Users", ["List"])] := by
  refine ⟨?_, ?_, ?_, ?_⟩ <;> decide

/-- C14, amended (test role). For a package in test role that is not also in
controller role (the controller branch is taken first), a scan that ends
normally calls the struct extraction once on every declaration, in order, never
calls the action extraction, and every returned `TypeInfo` has no method
attached. -/
theorem test_role_only_structs (x : Extractors)
    (buildImport : String → String → Option String) (ip : ImportCache)
    (pkgImportPath pkgPath : String) (pkg : Package) (s : ScanState)
    (htest : scanTests pkgImportPath = true) (hctl : scanControllers pkgImportPath = false)
    (h : scanPackage x buildImport ip pkgImportPath pkgPath pkg = some s) :
    processPackage x buildImport ip pkgImportPath pkgPath pkg = some (sourceInfo s)
    ∧ (scanTests pkgImportPath = true ↔
        HasSuffix pkgImportPath "/tests" = true ∨ Contains pkgImportPath "/tests/" = true)
    ∧ s.structCalls.map Prod.fst = allDecls pkg
    ∧ s.actionCalls = []
    ∧ ∀ ti ∈ (sourceInfo s).StructSpecs, ti.MethodSpecs = [] := by
  have hstruct := scanPackage_structCalls buildImport h
  have haction := scanPackage_actionCalls buildImport h
  have hmethods := scanPackage_methodSpecs_of_not_controllers buildImport hctl h
  refine ⟨?_, ?_, ?_, ?_, ?_⟩
  · unfold processPackage
    rw [h]
    rfl
  · unfold scanTests
    rw [Bool.or_eq_true]
  · rw [hstruct, htest, hctl]
    rfl
  · rw [hctl] at haction
    simpa using haction
  · intro ti hti
    simp only [sourceInfo, List.mem_map] at hti
    obtain ⟨spec, _, rfl⟩ := hti
    show s.methodSpecs.index spec.StructName = []
    rw [hmethods]
    rfl

/-- C14 amended, on the package of the scenario in `app/tests`: the struct
`Users` is returned without methods. -/
theorem test_role_only_structs_witness :
    scanTests "app/tests" = true ∧ scanControllers "app/tests" = false
    ∧ ∃ s : ScanState,
      scanPackage usersExtractors modelsImporter ∅ "app/tests" "src" usersPackage = some s
      ∧ s.actionCalls = []
      ∧ ∀ ti ∈ (sourceInfo s).StructSpecs, ti.MethodSpecs = [] := by
  refine ⟨by decide, by decide, ?_⟩
  cases h : scanPackage usersExtractors modelsImporter ∅ "app/tests" "src" usersPackage with
  | none =>
    have hsome := scanPackage_isSome modelsImporter usersExtractors ∅ "app/tests" "src"
      usersPackage
    rw [h] at hsome
    exact absurd hsome (by decide)
  | some s =>
    have key := test_role_only_structs usersExtractors modelsImporter ∅ "app/tests" "src"
      usersPackage s (by decide) (by decide) h
    exact ⟨s, rfl, key.2.2.2.1, key.2.2.2.2⟩

/-! ## Declarations that are not imports, and malformed import specs -/

/-- C15 (other declarations are ignored). On a declaration that is not a
declaration of imports (a function declaration, a bad declaration, or a general
declaration whose token is not `IMPORT`), `addImports` returns with the whole
store as it was: table and cache unchanged, no importer invocation, no line
printed. -/
theorem addImports_ignores_other_decls (buildImport : String → String → Option String)
    (st : Store) (decl : Decl) (srcDir : String)
    (hkind : ∀ specs : List Spec, decl ≠ .genDecl .IMPORT specs) :
    addImports buildImport st decl srcDir = some st := by
  cases decl with
  | badDecl => rfl
  | funcDecl f => rfl
  | genDecl Tok Specs =>
    cases Tok
    case IMPORT => exact absurd rfl (hkind Specs)
    all_goals rfl

/-- C15 on a `var` declaration, with a store that has a cache and a table. -/
theorem addImports_ignores_other_decls_witness :
    (∀ specs : List Spec, Decl.genDecl .VAR [.valueSpec ["x"]] ≠ .genDecl .IMPORT specs)
    ∧ addImports modelsImporter modelsStore (.genDecl .VAR [.valueSpec ["x"]]) "src"
        = some modelsStore :=
  ⟨(by intro specs h; cases h),
    addImports_ignores_other_decls modelsImporter modelsStore (.genDecl .VAR [.valueSpec ["x"]])
      "src" (by intro specs h; cases h)⟩

/-- C16, as stated, fails: the declaration `import _ ` with an empty path
literal holds a spec whose path literal is too short to carry two quote
characters, and `addImports` returns normally, having skipped the spec: the
alias `_` is tested before the path is read. -/
theorem blank_spec_with_short_path_is_skipped :
    len "" < 2
    ∧ addImports failingImporter emptyStore (.genDecl .IMPORT [.importSpec ⟨some "_", ""⟩]) "src"
        = some emptyStore := by
  constructor <;> decide

theorem slice_quotes (q : String) (hlen : 2 ≤ len q) :
    ∃ (a b : Char) (mid : List Char),
      q.data = a :: (mid ++ [b]) ∧ slice q 1 (len q - 1) = some ⟨mid⟩ := by
  obtain ⟨l⟩ := q
  unfold len at hlen
  simp only at hlen
  cases l with
  | nil => simp at hlen
  | cons a rest =>
    rcases List.eq_nil_or_concat rest with hnil | ⟨mid, b, hrest⟩
    · subst hnil
      simp at hlen
    · rw [List.concat_eq_append] at hrest
      subst hrest
      refine ⟨a, b, mid, rfl, ?_⟩
      unfold slice len
      simp only
      have hcond : (0 : Int) ≤ 1 ∧ (1 : Int) ≤ ((a :: (mid ++ [b])).length : Int) - 1
          ∧ ((a :: (mid ++ [b])).length : Int) - 1 ≤ ((a :: (mid ++ [b])).length : Int) := by
        simp only [List.length_cons, List.length_append, List.length_nil]
        omega
      rw [if_pos hcond]
      have hn : (((a :: (mid ++ [b])).length : Int) - 1).toNat - (1 : Int).toNat = mid.length := by
        simp only [List.length_cons, List.length_append, List.length_nil]
        omega
      rw [hn]
      simp

/-- C16, amended (a malformed spec makes `addImports` panic). When an import
declaration holds a spec on which the loop body cannot go on, that is a spec
node that is not an import spec, or an import spec other than a blank one whose
path literal has fewer than two characters, `addImports` panics from every
store, with every importer, and so does `processPackage` on every package that
holds the declaration: the spec is not skipped and no store is returned. A path
literal of length at least 2 is sliced to the literal without its first and its
last character. -/
theorem malformed_import_spec_panics (specs : List Spec) (bad : Spec)
    (hmem : bad ∈ specs) (hbad : specOk bad = false) :
    (∀ (buildImport : String → String → Option String) (st : Store) (srcDir : String),
        addImports buildImport st (.genDecl .IMPORT specs) srcDir = none)
    ∧ (∀ (x : Extractors) (buildImport : String → String → Option String) (ip : ImportCache)
        (pkgImportPath pkgPath : String) (pkg : Package),
        Decl.genDecl .IMPORT specs ∈ allDecls pkg →
        processPackage x buildImport ip pkgImportPath pkgPath pkg = none)
    ∧ ((∃ names, bad = .valueSpec names) ∨ (∃ name, bad = .typeSpec name)
        ∨ ∃ name q, bad = .importSpec ⟨name, q⟩ ∧ name ≠ some "_" ∧ len q < 2)
    ∧ (∀ q : String, 2 ≤ len q →
        ∃ (a b : Char) (mid : List Char),
          q.data = a :: (mid ++ [b]) ∧ slice q 1 (len q - 1) = some ⟨mid⟩) := by
  have hdecl : declOk (.genDecl .IMPORT specs) = false := by
    simp only [declOk]
    rw [Bool.eq_false_iff]
    intro hall
    rw [List.all_eq_true] at hall
    rw [hall bad hmem] at hbad
    cases hbad
  refine ⟨?_, ?_, ?_, slice_quotes⟩
  · intro buildImport st srcDir
    have h := addImports_isSome buildImport srcDir st (.genDecl .IMPORT specs)
    rw [hdecl] at h
    cases hres : addImports buildImport st (.genDecl .IMPORT specs) srcDir with
    | none => rfl
    | some s => rw [hres] at h; cases h
  · intro x buildImport ip pkgImportPath pkgPath pkg hin
    have h := processPackage_isSome buildImport x ip pkgImportPath pkgPath pkg
    have hpkg : packageOk pkg = false := by
      unfold packageOk
      rw [Bool.eq_false_iff]
      intro hall
      rw [List.all_eq_true] at hall
      unfold allDecls at hin
      rw [List.mem_flatMap] at hin
      obtain ⟨file, hfile, hd⟩ := hin
      have hf := hall file hfile
      rw [List.all_eq_true] at hf
      rw [hf _ hd] at hdecl
      cases hdecl
    rw [hpkg] at h
    cases hres : processPackage x buildImport ip pkgImportPath pkgPath pkg with
    | none => rfl
    | some s => rw [hres] at h; cases h
  · cases bad with
    | valueSpec names => exact Or.inl ⟨names, rfl⟩
    | typeSpec name => exact Or.inr (Or.inl ⟨name, rfl⟩)
    | importSpec s =>
      obtain ⟨name, q⟩ := s
      refine Or.inr (Or.inr ⟨name, q, rfl, ?_, ?_⟩)
      · intro hname
        simp [specOk, hname] at hbad
      · simp [specOk] at hbad
        omega

/-- C16 amended, on `import "x` cut short to the one character `x`, and on a
type spec inside an import declaration. -/
theorem malformed_import_spec_panics_witness :
    Spec.importSpec ⟨none, "x"⟩ ∈ [modelsSpec, Spec.importSpec ⟨none, "x"⟩]
    ∧ specOk (.importSpec ⟨none, "x"⟩) = false
    ∧ addImports modelsImporter emptyStore
        (.genDecl .IMPORT [modelsSpec, .importSpec ⟨none, "x"⟩]) "src" = none :=
  ⟨by decide, by decide,
    (malformed_import_spec_panics [modelsSpec, .importSpec ⟨none, "x"⟩] (.importSpec ⟨none, "x"⟩)
      (by decide) (by decide)).1 modelsImporter emptyStore "src"⟩

/-- C17, the code at the failing inputs: a package whose only function
declaration is the method `func (u Users) init()`, and a package whose only
function declaration is `func init(x int)`, both get their import path recorded
in `InitImportPaths`, although neither declares a package initializer. -/
theorem init_recorded_for_every_decl_named_init :
    (processPackage sampleExtractors failingImporter ∅ "app/models" "src"
        ⟨"models", [⟨[.funcDecl initMethod]⟩]⟩).map (fun si => si.InitImportPaths)
      = some ["app/models"]
    ∧ (processPackage sampleExtractors failingImporter ∅ "app/models" "src"
        ⟨"models", [⟨[.funcDecl initWithParam]⟩]⟩).map (fun si => si.InitImportPaths)
      = some ["app/models"]
    ∧ initMethod.Recv = some "Users"
    ∧ initWithParam.Params = ["x"] := by
  refine ⟨?_, ?_, rfl, rfl⟩ <;> decide

/-! ## The table of a file holds only the imports of the file -/

section Fresh

variable (buildImport : String → String → Option String) (srcDir : String)

theorem lookup_insert_cases {m : StringMap} {A P k p : String}
    (h : (m.insert A P).lookup k = some p) : p = P ∨ m.lookup k = some p := by
  by_cases hk : k = A
  · subst hk
    rw [Finmap.lookup_insert] at h
    exact Or.inl (Option.some.inj h).symm
  · rw [Finmap.lookup_insert_of_ne _ hk] at h
    exact Or.inr h

theorem addImportSpec_unaliased_entries {st st' : Store} {q : String}
    (h : addImportSpec buildImport srcDir st (.importSpec ⟨none, q⟩) = some st')
    {k p : String} (hkp : st'.imports.lookup k = some p) :
    st.imports.lookup k = some p ∨ slice q 1 (len q - 1) = some p := by
  cases hq : slice q 1 (len q - 1) with
  | none => rw [addImportSpec_unsliced _ _ _ _ hq] at h; cases h
  | some P =>
    by_cases hc : index st.ip P = ""
    · cases hi : buildImport P srcDir with
      | none =>
        rw [addImportSpec_failed _ _ _ _ _ hq hc hi] at h
        cases h
        exact Or.inl hkp
      | some N =>
        rw [addImportSpec_resolved _ _ _ _ _ _ hq hc hi] at h
        cases h
        rcases lookup_insert_cases hkp with hp | hold
        · exact Or.inr (by rw [hp])
        · exact Or.inl hold
    · rw [addImportSpec_hit _ _ _ _ _ hq hc] at h
      cases h
      rcases lookup_insert_cases hkp with hp | hold
      · exact Or.inr (by rw [hp])
      · exact Or.inl hold

/-- An entry of the table after a pass was there before, or has the path of the
spec, which is then an import spec other than a blank one. -/
theorem addImportSpec_entries {st st' : Store} {spec : Spec}
    (h : addImportSpec buildImport srcDir st spec = some st')
    {k p : String} (hkp : st'.imports.lookup k = some p) :
    st.imports.lookup k = some p ∨ specPath spec = some p := by
  cases spec with
  | valueSpec n => simp [addImportSpec] at h
  | typeSpec n => simp [addImportSpec] at h
  | importSpec s =>
    obtain ⟨name, q⟩ := s
    cases name with
    | none =>
      simpa [specPath] using addImportSpec_unaliased_entries buildImport srcDir h hkp
    | some A =>
      by_cases hB : A = "_"
      · subst hB
        rw [addImportSpec_blank] at h
        cases h
        exact Or.inl hkp
      · by_cases hA : A = ""
        · subst hA
          rw [addImportSpec_emptyName] at h
          simpa [specPath] using addImportSpec_unaliased_entries buildImport srcDir h hkp
        · rw [addImportSpec_explicit _ _ _ _ _ hA hB] at h
          cases hq : slice q 1 (len q - 1) with
          | none => rw [hq] at h; cases h
          | some P =>
            rw [hq] at h
            cases h
            rcases lookup_insert_cases hkp with hp | hold
            · exact Or.inr (by simp [specPath, hB, hq, hp])
            · exact Or.inl hold

theorem addImportSpecs_entries (specs : List Spec) :
    ∀ {st st' : Store}, addImportSpecs buildImport srcDir st specs = some st' →
    ∀ {k p : String}, st'.imports.lookup k = some p →
      st.imports.lookup k = some p ∨ p ∈ specs.filterMap specPath := by
  induction specs with
  | nil =>
    intro st st' h k p hkp
    rw [addImportSpecs_nil] at h
    cases h
    exact Or.inl hkp
  | cons s post ih =>
    intro st st' h k p hkp
    rw [addImportSpecs_cons] at h
    cases hs : addImportSpec buildImport srcDir st s with
    | none => rw [hs] at h; cases h
    | some mid =>
      rw [hs] at h
      rcases ih h hkp with hmid | hpost
      · rcases addImportSpec_entries buildImport srcDir hs hmid with hold | hpath
        · exact Or.inl hold
        · right
          rw [List.filterMap_cons, hpath]
          exact List.mem_cons_self _ _
      · right
        rw [List.filterMap_cons]
        cases specPath s with
        | none => exact hpost
        | some P => exact List.mem_cons_of_mem _ hpost

/-- An entry of the table after `addImports` was there before, or has the path
of an import spec, other than a blank one, of the declaration. -/
theorem addImports_entries {st st' : Store} {decl : Decl}
    (h : addImports buildImport st decl srcDir = some st')
    {k p : String} (hkp : st'.imports.lookup k = some p) :
    st.imports.lookup k = some p ∨ p ∈ declPaths decl := by
  cases decl with
  | badDecl => simp [addImports] at h; subst h; exact Or.inl hkp
  | funcDecl f => simp [addImports] at h; subst h; exact Or.inl hkp
  | genDecl Tok Specs =>
    cases Tok
    case IMPORT =>
      rw [addImports_importDecl] at h
      exact addImportSpecs_entries buildImport srcDir Specs h hkp
    all_goals
      simp [addImports] at h
      subst h
      exact Or.inl hkp

/-- A property kept by every normal pass of a loop body over an element of the
list is kept by the loop. -/
theorem foldlM_keeps_mem {σ α : Type} (f : σ → α → Option σ) (Inv : σ → Prop) :
    ∀ (l : List α), (∀ s a s', a ∈ l → Inv s → f s a = some s' → Inv s') →
    ∀ (s s' : σ), Inv s → l.foldlM f s = some s' → Inv s' := by
  intro l
  induction l with
  | nil =>
    intro _ s s' hs h
    simp at h
    exact h ▸ hs
  | cons a l ih =>
    intro hstep s s' hs h
    rw [List.foldlM_cons] at h
    cases hfa : f s a with
    | none => simp [hfa] at h
    | some s1 =>
      simp [hfa] at h
      exact ih (fun t b t' hb => hstep t b t' (List.mem_cons_of_mem _ hb)) s1 s'
        (hstep s a s1 (List.mem_cons_self _ _) hs hfa) h

theorem callsFrom_refl {α : Type} (paths : List String) (l : List (α × StringMap)) :
    CallsFrom paths l l :=
  ⟨[], (List.append_nil l).symm, fun c hc => by cases hc⟩

theorem callsFrom_snoc {α : Type} {paths : List String} {before now : List (α × StringMap)}
    (h : CallsFrom paths before now) (a : α) {T : StringMap} (hT : TableFrom paths T) :
    CallsFrom paths before (now ++ [(a, T)]) := by
  obtain ⟨new, hnow, hnew⟩ := h
  refine ⟨new ++ [(a, T)], by rw [hnow, List.append_assoc], ?_⟩
  intro c hc
  rcases List.mem_append.mp hc with hc | hc
  · exact hnew c hc
  · rw [List.mem_singleton] at hc
    subst hc
    exact hT

theorem callsFrom_snoc_if {α : Type} {paths : List String} {before now : List (α × StringMap)}
    (h : CallsFrom paths before now) (b : Bool) (a : α) {T : StringMap}
    (hT : TableFrom paths T) :
    CallsFrom paths before (now ++ (if b then [(a, T)] else [])) := by
  cases b
  · simpa using h
  · simpa using callsFrom_snoc h a hT

theorem scanFunc_validationCalls_calls (x : Extractors) (pkgImportPath : String)
    (st : ScanState) (decl : Decl) :
    (scanFunc x pkgImportPath st decl).validationCalls
      = st.validationCalls ++ (match funcOf decl with
          | some f => [(f, st.store.imports)]
          | none => []) := by
  cases decl with
  | badDecl => simp [scanFunc, funcOf]
  | genDecl t s => simp [scanFunc, funcOf]
  | funcDecl f =>
    rw [scanFunc_validationCalls]
    rfl

theorem processDecl_fileTables {x : Extractors} {pkgImportPath pkgPath : String}
    {pkg : Package} {paths : List String} {st0 st st' : ScanState} {decl : Decl}
    (hpaths : ∀ p ∈ declPaths decl, p ∈ paths)
    (hst : FileTables paths st0 st)
    (h : processDecl x buildImport pkgImportPath pkgPath pkg st decl = some st') :
    FileTables paths st0 st' := by
  obtain ⟨store, hstore, rfl⟩ := processDecl_eq buildImport h
  obtain ⟨htable, hstruct, haction, hvalid⟩ := hst
  have htable' : TableFrom paths store.imports := by
    intro k p hkp
    rcases addImports_entries buildImport pkgPath hstore hkp with hold | hnew
    · exact htable k p hold
    · exact hpaths p hnew
  refine ⟨?_, ?_, ?_, ?_⟩
  · rw [scanFunc_store, extractDecl_store]
    exact htable'
  · rw [scanFunc_structCalls, extractDecl_structCalls]
    exact callsFrom_snoc_if hstruct _ decl htable'
  · rw [scanFunc_actionCalls, extractDecl_actionCalls]
    exact callsFrom_snoc_if haction _ decl htable'
  · rw [scanFunc_validationCalls_calls, extractDecl_validationCalls, extractDecl_store]
    cases funcOf decl with
    | none => simpa using hvalid
    | some f => exact callsFrom_snoc hvalid f htable'

end Fresh

theorem processFile_fileTables {x : Extractors}
    {buildImport : String → String → Option String} {pkgImportPath pkgPath : String}
    {pkg : Package} {st st' : ScanState} {file : File}
    (h : processFile x buildImport pkgImportPath pkgPath pkg st file = some st') :
    FileTables (filePaths file) st st' := by
  unfold processFile at h
  refine foldlM_keeps_mem (processDecl x buildImport pkgImportPath pkgPath pkg)
    (FileTables (filePaths file) st) file.Decls ?_ _ st' ?_ h
  · intro s d s' hd hs hstep
    refine processDecl_fileTables buildImport ?_ hs hstep
    intro p hp
    unfold filePaths
    rw [List.mem_flatMap]
    exact ⟨d, hd, hp⟩
  · refine ⟨?_, callsFrom_refl _ _, callsFrom_refl _ _, callsFrom_refl _ _⟩
    intro k p hkp
    simp at hkp

/-- The paths of a file are the paths of the import specs, other than blank
ones, of its import declarations. -/
theorem mem_filePaths (file : File) (p : String) :
    p ∈ filePaths file ↔
      ∃ (specs : List Spec) (name : Option String) (q : String),
        Decl.genDecl .IMPORT specs ∈ file.Decls ∧ Spec.importSpec ⟨name, q⟩ ∈ specs
          ∧ name ≠ some "_" ∧ slice q 1 (len q - 1) = some p := by
  unfold filePaths
  rw [List.mem_flatMap]
  constructor
  · rintro ⟨d, hd, hp⟩
    cases d with
    | badDecl => simp [declPaths] at hp
    | funcDecl f => simp [declPaths] at hp
    | genDecl Tok Specs =>
      cases Tok
      case IMPORT =>
        simp only [declPaths, List.mem_filterMap] at hp
        obtain ⟨spec, hspec, hpath⟩ := hp
        cases spec with
        | valueSpec n => simp [specPath] at hpath
        | typeSpec n => simp [specPath] at hpath
        | importSpec s =>
          obtain ⟨name, q⟩ := s
          simp only [specPath] at hpath
          by_cases hname : name = some "_"
          · simp [hname] at hpath
          · rw [if_neg hname] at hpath
            exact ⟨Specs, name, q, hd, hspec, hname, hpath⟩
      all_goals simp [declPaths] at hp
  · rintro ⟨specs, name, q, hd, hspec, hname, hpath⟩
    refine ⟨.genDecl .IMPORT specs, hd, ?_⟩
    simp only [declPaths, List.mem_filterMap]
    exact ⟨.importSpec ⟨name, q⟩, hspec, by simp [specPath, hname, hpath]⟩

/-- C18 (a fresh table for every file). In a scan that ends normally, take any
file of the package, with the files ranged over before it and after it. The
declarations of the file are started on an empty table, so `processFile` on it
ends the same whatever table the files before it left. The table it leaves and
every table it handed to the struct extraction, the action extraction or the
validation scan for a declaration of the file has only entries whose path is the
path of an import spec, other than a blank one, of an import declaration of that
same file. -/
theorem import_table_fresh_per_file (x : Extractors)
    (buildImport : String → String → Option String) (ip : ImportCache)
    (pkgImportPath pkgPath : String) (pkg : Package) (before after : List File) (file : File)
    (s : ScanState) (hfiles : pkg.Files = before ++ file :: after)
    (h : scanPackage x buildImport ip pkgImportPath pkgPath pkg = some s) :
    ∃ st st' : ScanState,
      before.foldlM (processFile x buildImport pkgImportPath pkgPath pkg) (initialScan ip)
        = some st
      ∧ processFile x buildImport pkgImportPath pkgPath pkg st file = some st'
      ∧ after.foldlM (processFile x buildImport pkgImportPath pkgPath pkg) st' = some s
      ∧ processFile x buildImport pkgImportPath pkgPath pkg st file
          = file.Decls.foldlM (processDecl x buildImport pkgImportPath pkgPath pkg)
              { st with store := { st.store with imports := ∅ } }
      ∧ (∀ T : StringMap,
          processFile x buildImport pkgImportPath pkgPath pkg
              { st with store := { st.store with imports := T } } file = some st')
      ∧ TableFrom (filePaths file) st'.store.imports
      ∧ CallsFrom (filePaths file) st.structCalls st'.structCalls
      ∧ CallsFrom (filePaths file) st.actionCalls st'.actionCalls
      ∧ CallsFrom (filePaths file) st.validationCalls st'.validationCalls
      ∧ (∀ p : String, p ∈ filePaths file ↔
          ∃ (specs : List Spec) (name : Option String) (q : String),
            Decl.genDecl .IMPORT specs ∈ file.Decls ∧ Spec.importSpec ⟨name, q⟩ ∈ specs
              ∧ name ≠ some "_" ∧ slice q 1 (len q - 1) = some p) := by
  unfold scanPackage at h
  rw [hfiles, List.foldlM_append] at h
  cases hb : before.foldlM (processFile x buildImport pkgImportPath pkgPath pkg)
      (initialScan ip) with
  | none => simp [hb] at h
  | some st =>
    rw [hb] at h
    simp only [Option.bind_eq_bind, Option.some_bind, List.foldlM_cons] at h
    cases hf : processFile x buildImport pkgImportPath pkgPath pkg st file with
    | none => simp [hf] at h
    | some st' =>
      rw [hf] at h
      simp only [Option.some_bind] at h
      have key := processFile_fileTables hf
      exact ⟨st, st', rfl, hf, h, rfl, fun T => hf, key.1, key.2.1, key.2.2.1, key.2.2.2,
        mem_filePaths file⟩

/-- C18 on a package with two files, the first importing `sample/app/models`,
the second `a/b` and `c/d` as `foo`: the table left by the second file has no
entry of the first. -/
theorem import_table_fresh_per_file_witness :
    (scanPackage sampleExtractors modelsImporter ∅ "app/controllers" "src"
        twoFilePackage).map (fun s => s.store.imports) = some (Finmap.insert "foo" "c/d" ∅)
    ∧ ∃ s st st' : ScanState,
        scanPackage sampleExtractors modelsImporter ∅ "app/controllers" "src" twoFilePackage
          = some s
        ∧ processFile sampleExtractors modelsImporter "app/controllers" "src" twoFilePackage
            st twoAliasFile = some st'
        ∧ st.store.imports.lookup "models" = some "sample/app/models"
        ∧ TableFrom (filePaths twoAliasFile) st'.store.imports := by
  refine ⟨by decide, ?_⟩
  cases h : scanPackage sampleExtractors modelsImporter ∅ "app/controllers" "src"
      twoFilePackage with
  | none =>
    have hsome := scanPackage_isSome modelsImporter sampleExtractors ∅ "app/controllers" "src"
      twoFilePackage
    rw [h] at hsome
    exact absurd hsome (by decide)
  | some s =>
    obtain ⟨st, st', hb, hf, _, _, _, htable, _⟩ :=
      import_table_fresh_per_file sampleExtractors modelsImporter ∅ "app/controllers" "src"
        twoFilePackage [⟨[.genDecl .IMPORT [modelsSpec]]⟩] [] twoAliasFile s rfl h
    refine ⟨s, st, st', rfl, hf, ?_, htable⟩
    have hst : [File.mk [.genDecl .IMPORT [modelsSpec]]].foldlM
        (processFile sampleExtractors modelsImporter "app/controllers" "src" twoFilePackage)
        (initialScan ∅) = some st := hb
    have hmap : ([File.mk [.genDecl .IMPORT [modelsSpec]]].foldlM
        (processFile sampleExtractors modelsImporter "app/controllers" "src" twoFilePackage)
        (initialScan ∅)).map (fun t => t.store.imports.lookup "models")
          = some (some "sample/app/models") := by decide
    rw [hst] at hmap
    exact Option.some.inj hmap

/-- C19 (last write wins). Take a file with an import that is given the alias
`K` for its path `P` (explicitly, from the cache or from the importer: the pass
over it inserts `K -> P`), processed normally, and let none of the imports
processed after it in the file be given the alias `K` (the store `r` they leave
when run on an empty table has no entry for `K`). Then `processFile` ends
normally and the table it leaves maps `K` to `P`, the path of that later import,
whatever the imports before it wrote for `K`, and `P` is the only path the
table holds for `K`. -/
theorem last_write_wins (x : Extractors) (buildImport : String → String → Option String)
    (pkgImportPath pkgPath : String) (pkg : Package) (st : ScanState)
    (D1 D2 : List Decl) (pre post : List Spec) (spec : Spec) (K P : String)
    (s1 s2 s3 r : Store)
    (hD1 : addImportsDecls buildImport pkgPath { st.store with imports := ∅ } D1 = some s1)
    (hpre : addImportSpecs buildImport pkgPath s1 pre = some s2)
    (hstep : addImportSpec buildImport pkgPath s2 spec = some s3)
    (hK : s3.imports = s2.imports.insert K P)
    (hrest : (addImportSpecs buildImport pkgPath { s3 with imports := ∅ } post).bind
        (fun s => addImportsDecls buildImport pkgPath s D2) = some r)
    (hlater : r.imports.lookup K = none) :
    ∃ st' : ScanState,
      processFile x buildImport pkgImportPath pkgPath pkg st
          ⟨D1 ++ .genDecl .IMPORT (pre ++ spec :: post) :: D2⟩ = some st'
      ∧ st'.store.imports = r.imports ∪ s2.imports.insert K P
      ∧ st'.store.imports.lookup K = some P
      ∧ ∃! p : String, st'.store.imports.lookup K = some p := by
  obtain ⟨m, hm, hmr⟩ : ∃ m, addImportSpecs buildImport pkgPath { s3 with imports := ∅ } post
      = some m ∧ addImportsDecls buildImport pkgPath m D2 = some r := by
    cases hm : addImportSpecs buildImport pkgPath { s3 with imports := ∅ } post with
    | none => simp [hm] at hrest
    | some m => exact ⟨m, rfl, by simpa [hm] using hrest⟩
  have hpost : addImportSpecs buildImport pkgPath s3 post
      = some { m with imports := m.imports ∪ s2.imports.insert K P } := by
    have h := addImportSpecs_table buildImport pkgPath post { s3 with imports := ∅ }
      (s2.imports.insert K P)
    simp only [Finmap.empty_union] at h
    rw [← hK] at h
    rw [← hK, h, hm]
    rfl
  have hD2 : addImportsDecls buildImport pkgPath
      { m with imports := m.imports ∪ s2.imports.insert K P } D2
        = some { r with imports := r.imports ∪ s2.imports.insert K P } := by
    rw [addImportsDecls_table buildImport pkgPath D2 m (s2.imports.insert K P), hmr]
    rfl
  have hdecl : addImports buildImport s1 (.genDecl .IMPORT (pre ++ spec :: post)) pkgPath
      = some { m with imports := m.imports ∪ s2.imports.insert K P } := by
    rw [addImports_reach buildImport pkgPath hpre hstep post, hpost]
  have hall : addImportsDecls buildImport pkgPath { st.store with imports := ∅ }
      (D1 ++ .genDecl .IMPORT (pre ++ spec :: post) :: D2)
        = some { r with imports := r.imports ∪ s2.imports.insert K P } := by
    rw [addImportsDecls_append, hD1]
    show addImportsDecls buildImport pkgPath s1 _ = _
    rw [addImportsDecls_cons, hdecl]
    exact hD2
  have hfile := processFile_store buildImport x pkgImportPath pkgPath pkg st
    ⟨D1 ++ .genDecl .IMPORT (pre ++ spec :: post) :: D2⟩
  rw [hall] at hfile
  cases hst : processFile x buildImport pkgImportPath pkgPath pkg st
      ⟨D1 ++ .genDecl .IMPORT (pre ++ spec :: post) :: D2⟩ with
  | none => simp [hst] at hfile
  | some st' =>
    simp only [hst, Option.map_some', Option.some.injEq] at hfile
    have hlook : st'.store.imports.lookup K = some P := by
      rw [hfile]
      simp only
      rw [Finmap.lookup_union_right (Finmap.lookup_eq_none.mp hlater), Finmap.lookup_insert]
    refine ⟨st', rfl, by rw [hfile], hlook, P, hlook, ?_⟩
    intro p hp
    rw [hlook] at hp
    exact (Option.some.inj hp).symm

/-- C19 on `import ( foo "a/b"; foo "c/d" )`: both imports are given the alias
`foo`, and the table maps `foo` to `c/d`, the path of the later one. -/
theorem last_write_wins_witness :
    ∃ st' : ScanState,
      processFile sampleExtractors failingImporter "app/controllers" "src"
          ⟨"controllers", [twoAliasFile]⟩ (initialScan ∅)
          ⟨[] ++ .genDecl .IMPORT ([.importSpec ⟨some "foo", "\"a/b\""⟩]
              ++ .importSpec ⟨some "foo", "\"c/d\""⟩ :: []) :: []⟩ = some st'
      ∧ st'.store.imports
          = (emptyStore.imports.insert "foo" "a/b").insert "foo" "c/d"
      ∧ st'.store.imports.lookup "foo" = some "c/d" := by
  obtain ⟨st', h1, h2, h3, _⟩ := last_write_wins sampleExtractors failingImporter
    "app/controllers" "src" ⟨"controllers", [twoAliasFile]⟩ (initialScan ∅) [] []
    [.importSpec ⟨some "foo", "\"a/b\""⟩] [] (.importSpec ⟨some "foo", "\"c/d\""⟩)
    "foo" "c/d" emptyStore { emptyStore with imports := emptyStore.imports.insert "foo" "a/b" }
    { emptyStore with imports := (emptyStore.imports.insert "foo" "a/b").insert "foo" "c/d" }
    emptyStore (by decide) (by decide) (by decide) rfl (by decide) (by decide)
  refine ⟨st', h1, ?_, h3⟩
  rw [h2]
  decide

/-! ## The cache is transparent -/

section Transparent

variable (buildImport : String → String → Option String) (srcDir : String)

theorem lookup_of_index_ne {m : StringMap} {k : String} (h : index m k ≠ "") :
    m.lookup k = some (index m k) := by
  unfold index at h ⊢
  cases hl : m.lookup k with
  | none => rw [hl] at h; exact absurd rfl h
  | some v => rfl

theorem cacheAgrees_insert {ip : ImportCache} {P N : String}
    (hc : CacheAgrees buildImport srcDir ip) (hi : buildImport P srcDir = some N) :
    CacheAgrees buildImport srcDir (ip.insert P N) := by
  intro p a hpa
  by_cases hp : p = P
  · subst hp
    rw [Finmap.lookup_insert] at hpa
    rw [← Option.some.inj hpa]
    exact hi
  · rw [Finmap.lookup_insert_of_ne _ hp] at hpa
    exact hc p a hpa

theorem cacheAgrees_empty : CacheAgrees buildImport srcDir ∅ := by
  intro p a hpa
  simp at hpa

theorem addImportSpec_unaliased_sameOutcome {s1 s2 : Store} (q : String)
    (h : SameTable buildImport srcDir s1 s2) :
    SameOutcome buildImport srcDir
      (addImportSpec buildImport srcDir s1 (.importSpec ⟨none, q⟩))
      (addImportSpec buildImport srcDir s2 (.importSpec ⟨none, q⟩)) := by
  obtain ⟨htab, hc1, hc2⟩ := h
  cases hq : slice q 1 (len q - 1) with
  | none =>
    rw [addImportSpec_unsliced _ _ _ _ hq, addImportSpec_unsliced _ _ _ _ hq]
    trivial
  | some P =>
    by_cases h1 : index s1.ip P = ""
    · by_cases h2 : index s2.ip P = ""
      · cases hi : buildImport P srcDir with
        | none =>
          rw [addImportSpec_failed _ _ _ _ _ hq h1 hi, addImportSpec_failed _ _ _ _ _ hq h2 hi]
          exact ⟨htab, hc1, hc2⟩
        | some N =>
          rw [addImportSpec_resolved _ _ _ _ _ _ hq h1 hi,
            addImportSpec_resolved _ _ _ _ _ _ hq h2 hi]
          refine ⟨?_, cacheAgrees_insert buildImport srcDir hc1 hi,
            cacheAgrees_insert buildImport srcDir hc2 hi⟩
          show s1.imports.insert N P = s2.imports.insert N P
          rw [htab]
      · have hi : buildImport P srcDir = some (index s2.ip P) :=
          hc2 P _ (lookup_of_index_ne h2)
        rw [addImportSpec_resolved _ _ _ _ _ _ hq h1 hi, addImportSpec_hit _ _ _ _ _ hq h2]
        refine ⟨?_, cacheAgrees_insert buildImport srcDir hc1 hi, hc2⟩
        show s1.imports.insert (index s2.ip P) P = s2.imports.insert (index s2.ip P) P
        rw [htab]
    · have hi1 : buildImport P srcDir = some (index s1.ip P) :=
        hc1 P _ (lookup_of_index_ne h1)
      by_cases h2 : index s2.ip P = ""
      · rw [addImportSpec_hit _ _ _ _ _ hq h1, addImportSpec_resolved _ _ _ _ _ _ hq h2 hi1]
        refine ⟨?_, hc1, cacheAgrees_insert buildImport srcDir hc2 hi1⟩
        show s1.imports.insert (index s1.ip P) P = s2.imports.insert (index s1.ip P) P
        rw [htab]
      · have hi2 : buildImport P srcDir = some (index s2.ip P) :=
          hc2 P _ (lookup_of_index_ne h2)
        have heq : index s1.ip P = index s2.ip P := by
          rw [hi1] at hi2
          exact Option.some.inj hi2
        rw [addImportSpec_hit _ _ _ _ _ hq h1, addImportSpec_hit _ _ _ _ _ hq h2]
        refine ⟨?_, hc1, hc2⟩
        show s1.imports.insert (index s1.ip P) P = s2.imports.insert (index s2.ip P) P
        rw [htab, heq]

theorem addImportSpec_sameOutcome {s1 s2 : Store} (spec : Spec)
    (h : SameTable buildImport srcDir s1 s2) :
    SameOutcome buildImport srcDir
      (addImportSpec buildImport srcDir s1 spec) (addImportSpec buildImport srcDir s2 spec) := by
  cases spec with
  | valueSpec n => trivial
  | typeSpec n => trivial
  | importSpec s =>
    obtain ⟨name, q⟩ := s
    cases name with
    | none => exact addImportSpec_unaliased_sameOutcome buildImport srcDir q h
    | some A =>
      by_cases hB : A = "_"
      · subst hB
        rw [addImportSpec_blank, addImportSpec_blank]
        exact h
      · by_cases hA : A = ""
        · subst hA
          rw [addImportSpec_emptyName, addImportSpec_emptyName]
          exact addImportSpec_unaliased_sameOutcome buildImport srcDir q h
        · rw [addImportSpec_explicit _ _ _ _ _ hA hB, addImportSpec_explicit _ _ _ _ _ hA hB]
          cases slice q 1 (len q - 1) with
          | none => trivial
          | some P =>
            obtain ⟨htab, hc1, hc2⟩ := h
            refine ⟨?_, hc1, hc2⟩
            show s1.imports.insert A P = s2.imports.insert A P
            rw [htab]

theorem addImportSpecs_sameOutcome (specs : List Spec) :
    ∀ {s1 s2 : Store}, SameTable buildImport srcDir s1 s2 →
    SameOutcome buildImport srcDir
      (addImportSpecs buildImport srcDir s1 specs) (addImportSpecs buildImport srcDir s2 specs) := by
  induction specs with
  | nil =>
    intro s1 s2 h
    rw [addImportSpecs_nil, addImportSpecs_nil]
    exact h
  | cons s post ih =>
    intro s1 s2 h
    rw [addImportSpecs_cons, addImportSpecs_cons]
    have hstep := addImportSpec_sameOutcome buildImport srcDir s h
    cases h1 : addImportSpec buildImport srcDir s1 s with
    | none =>
      cases h2 : addImportSpec buildImport srcDir s2 s with
      | none => trivial
      | some t2 => rw [h1, h2] at hstep; exact hstep.elim
    | some t1 =>
      cases h2 : addImportSpec buildImport srcDir s2 s with
      | none => rw [h1, h2] at hstep; exact hstep.elim
      | some t2 =>
        rw [h1, h2] at hstep
        exact ih hstep

theorem addImports_sameOutcome (decl : Decl) {s1 s2 : Store}
    (h : SameTable buildImport srcDir s1 s2) :
    SameOutcome buildImport srcDir
      (addImports buildImport s1 decl srcDir) (addImports buildImport s2 decl srcDir) := by
  cases decl with
  | badDecl => exact h
  | funcDecl f => exact h
  | genDecl Tok Specs =>
    cases Tok
    case IMPORT =>
      rw [addImports_importDecl, addImports_importDecl]
      exact addImportSpecs_sameOutcome buildImport srcDir Specs h
    all_goals exact h

end Transparent

/-- C20 (the cache is transparent). With the importer a function of the import
path and the source directory, and every entry of the cache equal to the name
the importer returns for that path from the given directory, `addImports` on
any declaration ends as it ends when started with an empty cache (both panic,
or both return), with the same import table, and every entry of the cache it
leaves again equals the importer's answer. -/
theorem cache_transparency (buildImport : String → String → Option String)
    (srcDir : String) (st : Store) (decl : Decl)
    (hcache : ∀ p a : String, st.ip.lookup p = some a → buildImport p srcDir = some a) :
    (addImports buildImport st decl srcDir).map (fun s => s.imports)
      = (addImports buildImport { st with ip := ∅ } decl srcDir).map (fun s => s.imports)
    ∧ ∀ st' : Store, addImports buildImport st decl srcDir = some st' →
        ∀ p a : String, st'.ip.lookup p = some a → buildImport p srcDir = some a := by
  have hsame : SameTable buildImport srcDir st { st with ip := ∅ } :=
    ⟨rfl, hcache, cacheAgrees_empty buildImport srcDir⟩
  have key := addImports_sameOutcome buildImport srcDir decl hsame
  cases h1 : addImports buildImport st decl srcDir with
  | none =>
    cases h2 : addImports buildImport { st with ip := ∅ } decl srcDir with
    | none =>
      refine ⟨rfl, ?_⟩
      intro st' hst'
      cases hst'
    | some t2 => rw [h1, h2] at key; exact key.elim
  | some t1 =>
    cases h2 : addImports buildImport { st with ip := ∅ } decl srcDir with
    | none => rw [h1, h2] at key; exact key.elim
    | some t2 =>
      rw [h1, h2] at key
      obtain ⟨htab, hc1, _⟩ := key
      refine ⟨by simp [htab], ?_⟩
      intro st' hst'
      cases hst'
      exact hc1

/-- C20 on the cache that holds `sample/app/models -> models`, the importer's
answer: `import "sample/app/models"` gives the table of the empty cache. -/
theorem cache_transparency_witness :
    (∀ p a : String, modelsStore.ip.lookup p = some a → modelsImporter p "src" = some a)
    ∧ (addImports modelsImporter { modelsStore with imports := ∅ }
          (.genDecl .IMPORT [modelsSpec, routesSpec]) "src").map (fun s => s.imports)
        = (addImports modelsImporter { modelsStore with imports := ∅, ip := ∅ }
            (.genDecl .IMPORT [modelsSpec, routesSpec]) "src").map (fun s => s.imports) := by
  have hc : ∀ p a : String, modelsStore.ip.lookup p = some a →
      modelsImporter p "src" = some a := by
    intro p a hpa
    by_cases hp : p = "sample/app/models"
    · subst hp
      have ha : a = "models" := by
        have hl : modelsStore.ip.lookup "sample/app/models" = some "models" := by decide
        rw [hl] at hpa
        exact (Option.some.inj hpa).symm
      subst ha
      decide
    · have hl : modelsStore.ip.lookup p = none := by
        simp [modelsStore, Finmap.lookup_insert_of_ne _ hp]
      rw [hl] at hpa
      cases hpa
  exact ⟨hc, (cache_transparency modelsImporter "src" { modelsStore with imports := ∅ }
    (.genDecl .IMPORT [modelsSpec, routesSpec]) hc).1⟩

end Harness
